import Mathlib

/-!
Verification of the CSV CRM cleaner (`src/cleaner.py`) against its
natural-language specification.

The pipeline is embedded shallowly:

* a pandas `DataFrame` becomes `DataFrame` / `CTable`: an ordered list of
  rows, each carrying its original integer index and an association list
  from column name to `Value`;
* cell values are `Value`: a string, the missing marker (`NaN`/`None`/`NaT`
  are not distinguished by the code, which only ever tests `pd.isna`), or a
  parsed date (`pd.Timestamp`, ordered by an integer ordinal);
* `pd.to_datetime(..., errors="coerce")` is an external library routine, so
  it is a parameter `parse : String → Option Int` of the pipeline: strings
  parse through `parse`, missing values stay missing, already-parsed dates
  pass through unchanged;
* `sort_values(["_dedupe_key", date], ascending=[True, True])` is pandas'
  stable lexicographic sort with the default `na_position="last"`, embedded
  as a stable insertion sort whose comparison puts missing dates after all
  real dates;
* `drop_duplicates(subset=["_dedupe_key"], keep="last")` keeps, for every
  key, the last row of the frame with that key, preserving frame order.

Python string primitives used by the code (`str.strip`, `str.lower`,
`str.split`, the regex `\s+` replacement) are embedded on `List Char`,
with ASCII lowercasing and the usual whitespace set.
-/

namespace CRMClean

/-! ## Python string primitives -/

/-- Whitespace characters recognised by Python's `str.strip`, `str.split`
and the regex class `\s` (ASCII fragment). -/
def isWs (c : Char) : Bool :=
  c == ' ' || c == '\t' || c == '\n' || c == '\r' || c == '\x0b' || c == '\x0c'

/-- ASCII lowercasing of one character, as `str.lower` acts on ASCII. -/
def lowerChar (c : Char) : Char :=
  if 65 ≤ c.toNat ∧ c.toNat ≤ 90 then Char.ofNat (c.toNat + 32) else c

/-- `str.strip` on a character list: drop whitespace from both ends. -/
def stripChars (l : List Char) : List Char :=
  ((l.dropWhile isWs).reverse.dropWhile isWs).reverse

/-- Python `s.strip()`. -/
def pyStrip (s : String) : String := String.mk (stripChars s.data)

/-- Python `s.lower()` (ASCII). -/
def pyLower (s : String) : String := String.mk (s.data.map lowerChar)

/-- Python `s.replace("_", " ")`. -/
def underscoreToSpace (s : String) : String :=
  String.mk (s.data.map (fun c => if c == '_' then ' ' else c))

/-- The regex substitution `re.sub(r"\s+", " ", s)`: every maximal
whitespace run becomes a single space. -/
def collapseWsChars : List Char → List Char
  | [] => []
  | c :: cs =>
    if isWs c then
      match cs with
      | d :: _ => if isWs d then collapseWsChars cs else ' ' :: collapseWsChars cs
      | [] => ' ' :: collapseWsChars cs
    else c :: collapseWsChars cs

/-- Pandas `.str.replace(r"\s+", " ", regex=True)`. -/
def collapseSpaces (s : String) : String := String.mk (collapseWsChars s.data)

/-- One step of splitting a character list into whitespace-separated words
(used right-to-left by `wordsOf`). -/
def wordStep (c : Char) (acc : List (List Char)) : List (List Char) :=
  if isWs c then [] :: acc
  else
    match acc with
    | [] => [[c]]
    | w :: ws => (c :: w) :: ws

/-- Python `s.split()` (no separator argument): whitespace-separated words,
empty words dropped. -/
def wordsOf (l : List Char) : List (List Char) :=
  (l.foldr wordStep []).filter (fun w => !w.isEmpty)

/-- `_normalize_header` from `cleaner.py`:
`" ".join(str(h).strip().lower().replace("_", " ").split())`. -/
def _normalize_header (s : String) : String :=
  String.intercalate " " ((wordsOf (underscoreToSpace (pyLower (pyStrip s))).data).map String.mk)

/-! ## Data model -/

/-- A cell value: a string, the missing marker (`NaN`/`None`/`NaT`), or a
parsed date. -/
inductive Value where
  | str (s : String)
  | na
  | date (d : Int)
deriving DecidableEq

/-- `fillna("").astype(str)` applied to one cell. -/
def toStrFill : Value → String
  | .str s => s
  | .na => ""
  | .date d => toString d

/-- Cells of one row: association list from column name to value. -/
abbrev Cells := List (String × Value)

/-- Value of a named column in a row; absent columns read as missing. -/
def getVal (cells : Cells) (c : String) : Value :=
  (cells.lookup c).getD Value.na

/-- The input table: ordered column names and rows, each row keeping its
original integer index label. -/
structure DataFrame where
  columns : List String
  rows : List (Nat × Cells)
deriving DecidableEq

/-- A canonical-columns table built by the pipeline (the frame `out`):
the list of canonical columns present, and the rows. -/
structure CTable where
  present : List String
  rows : List (Nat × Cells)
deriving DecidableEq

/-- `COMMON_ALIASES` from `cleaner.py`, in declaration order. -/
def COMMON_ALIASES : List (String × List String) :=
  [ ("full_name", ["full name", "name", "contact name", "customer name"]),
    ("first_name", ["first name", "firstname", "given name"]),
    ("last_name", ["last name", "lastname", "surname", "family name"]),
    ("email", ["email", "e-mail", "email address"]),
    ("phone", ["phone", "telephone", "mobile"]),
    ("last_clean_date", ["last clean date", "last_clean_date", "last service date", "service date", "date"]),
    ("clean_type", ["clean type", "service", "service type", "type"]),
    ("invoice_amount_brutto",
      ["invoice amount (brutto)", "invoice amount brutto", "brutto", "gross", "invoice amount", "amount"]) ]

/-- The canonical field names, in `COMMON_ALIASES` order. -/
def canonicalKeys : List String := COMMON_ALIASES.map Prod.fst

/-- First alias of the list whose normalized form has an entry in the
reverse lookup (`normalized header → original header`); returns the
original header it maps to. -/
def firstAliasMatch (reverse : List (String × String)) : List String → Option String
  | [] => none
  | a :: rest =>
    match reverse.lookup (_normalize_header a) with
    | some orig => some orig
    | none => firstAliasMatch reverse rest

/-- The reverse lookup `normalized header → original header`.  The Python
dict comprehension `{v: k for k, v in norm_cols.items()}` lets a later
column overwrite an earlier one with the same normalization, so the list
is reversed before the first-match `List.lookup`. -/
def revLookupList (columns : List String) : List (String × String) :=
  (columns.map (fun c => (_normalize_header c, c))).reverse

/-- `_build_auto_mapping` from `cleaner.py`. -/
def _build_auto_mapping (columns : List String) : List (String × String) :=
  COMMON_ALIASES.filterMap (fun fa =>
    match firstAliasMatch (revLookupList columns) fa.2 with
    | some orig => some (fa.1, orig)
    | none => none)

/-- `CleanConfig` from `cleaner.py`: a plain dataclass, no validation. -/
structure CleanConfig where
  date_field : String
  dedupe_key : String
  required : List String
  mapping : Option (List (String × String))
deriving DecidableEq

/-- The dataclass defaults of `CleanConfig`. -/
def defaultConfig : CleanConfig :=
  ⟨"last_clean_date", "email", ["full_name"], none⟩

/-- One report row: `row` is the original index, or `none` for the `"-"`
sentinel used by deduplication entries. -/
structure ReportEntry where
  row : Option Nat
  reason : String
deriving DecidableEq

/-- `CleanResult` from `cleaner.py`. -/
structure CleanResult where
  cleaned : CTable
  report : List ReportEntry
deriving DecidableEq

/-! ## Pipeline stages of `clean_contacts_csv` -/

/-- The projection loop: for each canonical field whose mapped source
header is truthy (non-empty) and among the input's columns, copy the
source column into the canonical column (`out[canonical] = df[src]`). -/
def buildOut (mapping : List (String × String)) (df : DataFrame) : CTable :=
  let keep : String → Bool := fun c =>
    match mapping.lookup c with
    | some src => src != "" && df.columns.contains src
    | none => false
  let srcOf : String → String := fun c => (mapping.lookup c).getD ""
  { present := canonicalKeys.filter keep,
    rows := df.rows.map (fun r =>
      (r.1, (canonicalKeys.filter keep).map (fun c => (c, getVal r.2 (srcOf c))))) }

/-- The synthesized `full_name` cell:
`(first.fillna("").astype(str).str.strip() + " " + last...).str.strip()`. -/
def synthNameVal (first last : Value) : Value :=
  Value.str (pyStrip (pyStrip (toStrFill first) ++ " " ++ pyStrip (toStrFill last)))

/-- Build `full_name` from `first_name`/`last_name` when `full_name` is
missing but both parts are present. -/
def synthFullName (t : CTable) : CTable :=
  if !t.present.contains "full_name" && t.present.contains "first_name"
      && t.present.contains "last_name" then
    { present := t.present ++ ["full_name"],
      rows := t.rows.map (fun r =>
        (r.1, r.2 ++ [("full_name",
          synthNameVal (getVal r.2 "first_name") (getVal r.2 "last_name"))])) }
  else t

/-- Apply `f` to every cell of column `c`, when that column is present. -/
def mapCol (c : String) (f : Value → Value) (t : CTable) : CTable :=
  if t.present.contains c then
    { present := t.present,
      rows := t.rows.map (fun r =>
        (r.1, r.2.map (fun cell => if cell.1 == c then (cell.1, f cell.2) else cell))) }
  else t

/-- Normalization of a `full_name` cell:
`fillna("").astype(str).str.replace(r"\s+", " ", regex=True).str.strip()`. -/
def normFullVal (v : Value) : Value :=
  Value.str (pyStrip (collapseSpaces (toStrFill v)))

/-- Normalization of an `email` cell:
`fillna("").astype(str).str.strip().str.lower()`. -/
def normEmailVal (v : Value) : Value :=
  Value.str (pyLower (pyStrip (toStrFill v)))

/-- `pd.to_datetime(col, errors="coerce")` on one cell, for an abstract
date parser `parse`: strings parse or coerce to the missing marker,
missing stays missing, parsed dates pass through. -/
def parseDateVal (parse : String → Option Int) : Value → Value
  | .str s =>
    match parse s with
    | some d => .date d
    | none => .na
  | .na => .na
  | .date d => .date d

/-- The `# Normalize` block: `full_name` then `email`. -/
def normalizeTable (t : CTable) : CTable :=
  mapCol "email" normEmailVal (mapCol "full_name" normFullVal t)

/-- The `# Parse date` block. -/
def parseDates (parse : String → Option Int) (dateField : String) (t : CTable) : CTable :=
  mapCol dateField (parseDateVal parse) t

/-- One cell is "missing" for the validator: `None`, a NaN-like value, or
a string that is empty after stripping. -/
def isMissingVal : Value → Bool
  | .na => true
  | .str s => pyStrip s == ""
  | .date _ => false

/-- `missing_required` from `cleaner.py`: the required fields (in
required-list order) that are absent from the canonical columns or whose
value in this row is missing. -/
def missing_required (required : List String) (present : List String) (cells : Cells) :
    List String :=
  required.filter (fun req => !present.contains req || isMissingVal (getVal cells req))

/-- The report entry the validation loop emits for one row: `none` when no
required field is missing, otherwise the `missing_required:<fields>` entry
carrying the row's index. -/
def valEntry (required : List String) (present : List String) (r : Nat × Cells) :
    Option ReportEntry :=
  let miss := missing_required required present r.2
  if miss.isEmpty then none
  else some ⟨some r.1, "missing_required:" ++ String.intercalate "," miss⟩

/-- The validation loop: keep the rows with no missing required field, and
emit one `missing_required:<fields>` report entry per rejected row. -/
def validateRows (cfg : CleanConfig) (t : CTable) : CTable × List ReportEntry :=
  (⟨t.present,
    t.rows.filter (fun r => (missing_required cfg.required t.present r.2).isEmpty)⟩,
   t.rows.filterMap (valEntry cfg.required t.present))

/-- The dedupe key of one row (`key_series`, normalized):
`email` when the configured key is `"email"` and the email column exists,
otherwise `full_name` when it exists, otherwise the empty series; then
`astype(str).str.strip().str.lower()`. -/
def rowKey (cfg : CleanConfig) (present : List String) (cells : Cells) : String :=
  let base :=
    if cfg.dedupe_key == "email" && present.contains "email" then
      toStrFill (getVal cells "email")
    else if present.contains "full_name" then
      toStrFill (getVal cells "full_name")
    else ""
  pyLower (pyStrip base)

/-- `out_valid["_dedupe_key"] = ...`: append the synthetic key column. -/
def addKeyCol (cfg : CleanConfig) (t : CTable) : CTable :=
  { present := t.present ++ ["_dedupe_key"],
    rows := t.rows.map (fun r =>
      (r.1, r.2 ++ [("_dedupe_key", Value.str (rowKey cfg t.present r.2))])) }

/-- Read the stored synthetic key back from a row. -/
def storedKey (cells : Cells) : String :=
  match getVal cells "_dedupe_key" with
  | .str s => s
  | _ => ""

/-- Lexicographic comparison of character lists by code point, as Python
compares strings. -/
def charListLt : List Char → List Char → Bool
  | [], [] => false
  | [], _ :: _ => true
  | _ :: _, [] => false
  | a :: as, b :: bs =>
    if a.toNat < b.toNat then true
    else if b.toNat < a.toNat then false
    else charListLt as bs

/-- Python string `<`. -/
def pyStrLt (a b : String) : Bool := charListLt a.data b.data

/-- Sort rank of a date cell under pandas' default `na_position="last"`:
real dates in date order, the missing marker after all of them. -/
def dateRank : Value → Nat × Int
  | .date d => (0, d)
  | _ => (1, 0)

/-- Lexicographic comparison on date ranks. -/
def rankLe (p q : Nat × Int) : Bool :=
  p.1 < q.1 || (p.1 == q.1 && decide (p.2 ≤ q.2))

/-- The `sort_values(["_dedupe_key", date_field], ascending=[True, True])`
comparison: key first (string order), then date rank. -/
def sortLe (dateField : String) (r s : Nat × Cells) : Bool :=
  pyStrLt (storedKey r.2) (storedKey s.2) ||
    (storedKey r.2 == storedKey s.2 &&
      rankLe (dateRank (getVal r.2 dateField)) (dateRank (getVal s.2 dateField)))

/-- The sort relation on rows as a `Prop`, for `List.insertionSort` (the
stable ascending sort, which is what pandas' multi-key sort computes). -/
def sortRel (dateField : String) (r s : Nat × Cells) : Prop :=
  sortLe dateField r s = true

instance (dateField : String) : DecidableRel (sortRel dateField) :=
  fun r s => instDecidableEqBool (sortLe dateField r s) true

/-- `drop_duplicates(subset=["_dedupe_key"], keep="last")`: keep a row iff
no later row of the frame has the same key, preserving frame order. -/
def keepLast (key : α → String) : List α → List α
  | [] => []
  | a :: as =>
    if as.any (fun b => key b == key a) then keepLast key as
    else a :: keepLast key as

/-- Adjacent deduplication of a sorted list (distinct group labels of
`groupby`, which sorts its keys). -/
def dedupAdj : List String → List String
  | [] => []
  | [a] => [a]
  | a :: b :: rest =>
    if a == b then dedupAdj (b :: rest) else a :: dedupAdj (b :: rest)

/-- String comparison used to sort group labels. -/
def strRel (a b : String) : Prop := pyStrLt b a = false

instance : DecidableRel strRel := fun a b => instDecidableEqBool (pyStrLt b a) false

/-- `dup_counts[dup_counts > 1].index.tolist()`: the distinct keys, in
ascending order, whose group has more than one member. -/
def dupKeys (rows : List (Nat × Cells)) : List String :=
  let ks := rows.map (fun r => storedKey r.2)
  (dedupAdj (List.insertionSort strRel ks)).filter (fun k => decide (1 < ks.count k))

/-- The `# Deduplicate` block: add the key column, then either the
date-sorting path (with its duplicate report) or the plain
keep-last path (which reports nothing). -/
def dedupeStage (cfg : CleanConfig) (t : CTable) : CTable × List ReportEntry :=
  let tk := addKeyCol cfg t
  if tk.present.contains cfg.date_field then
    let sorted := List.insertionSort (sortRel cfg.date_field) tk.rows
    (⟨tk.present, keepLast (fun r => storedKey r.2) sorted⟩,
     (dupKeys sorted).map (fun k =>
       ⟨none, "deduped_removed_duplicates:key=" ++ k⟩))
  else
    (⟨tk.present, keepLast (fun r => storedKey r.2) tk.rows⟩, [])

/-- `deduped.drop(columns=["_dedupe_key"], errors="ignore")`. -/
def dropKeyCol (t : CTable) : CTable :=
  ⟨t.present.filter (fun c => c != "_dedupe_key"),
   t.rows.map (fun r => (r.1, r.2.filter (fun cell => cell.1 != "_dedupe_key")))⟩

/-- `preferred_order` from `cleaner.py`. -/
def preferred_order : List String :=
  ["full_name", "email", "phone", "last_clean_date", "clean_type", "invoice_amount_brutto"]

/-- The final column selection `deduped[ordered]`. -/
def reorderCols (t : CTable) : CTable :=
  let ordered := preferred_order.filter (fun c => t.present.contains c)
    ++ t.present.filter (fun c => !preferred_order.contains c)
  ⟨ordered, t.rows.map (fun r => (r.1, ordered.map (fun c => (c, getVal r.2 c))))⟩

/-- The mapping in effect: the explicit one when supplied, otherwise the
auto-derived one (`if cfg.mapping is None`). -/
def mappingOf (df : DataFrame) (cfg : CleanConfig) : List (String × String) :=
  match cfg.mapping with
  | some m => m
  | none => _build_auto_mapping df.columns

/-- The canonical table right after projection, synthesis, normalization
and date parsing (the frame `out` before validation). -/
def outTable (parse : String → Option Int) (df : DataFrame) (cfg : CleanConfig) : CTable :=
  parseDates parse cfg.date_field (normalizeTable (synthFullName (buildOut (mappingOf df cfg) df)))

/-- `clean_contacts_csv` from `cleaner.py`.  The Python function mutates
`cfg.mapping` in place; the embedding passes the state explicitly and
returns the updated configuration next to the result. -/
def clean_contacts_csv (parse : String → Option Int) (df : DataFrame) (cfg : CleanConfig) :
    CleanResult × CleanConfig :=
  let cfg1 : CleanConfig := { cfg with mapping := some (mappingOf df cfg) }
  let out := outTable parse df cfg
  let v := validateRows cfg out
  let d := dedupeStage cfg v.1
  let cleaned := reorderCols (dropKeyCol d.1)
  (⟨cleaned, v.2 ++ d.2⟩, cfg1)

/-! ## Auxiliary notions over the embedding -/

/-- Invariant of collapsed text: no two adjacent whitespace characters and
every whitespace character is a plain space. -/
def goodWs (l : List Char) : Prop :=
  l.Chain' (fun a b => isWs a = false ∨ isWs b = false) ∧
    ∀ c ∈ l, isWs c = true → c = ' '

/-- The per-entry function of `_build_auto_mapping`'s `filterMap`. -/
def autoMapEntry (rev : List (String × String)) (fa : String × List String) :
    Option (String × String) :=
  match firstAliasMatch rev fa.2 with
  | some orig => some (fa.1, orig)
  | none => none

/-- Every row's cells are keyed by exactly the table's `present` columns. -/
def WF (t : CTable) : Prop := ∀ r ∈ t.rows, r.2.map Prod.fst = t.present

/-- Two rows with the same index whose cells read identically everywhere. -/
def pairR (a b : Nat × Cells) : Prop := a.1 = b.1 ∧ ∀ x, getVal a.2 x = getVal b.2 x

/-- Re-read a canonical table as a raw input table (feeding the cleaned
output back into the pipeline). -/
def toDataFrame (t : CTable) : DataFrame := ⟨t.present, t.rows⟩

/-- The configuration for re-running the tool: the same settings with the
mapping left to be auto-derived again. -/
def rerunConfig (cfg : CleanConfig) : CleanConfig :=
  ⟨cfg.date_field, cfg.dedupe_key, cfg.required, none⟩

/-! ## Concrete fixtures -/

/-- A concrete date parser standing in for `pd.to_datetime`. -/
def parse0 (s : String) : Option Int :=
  if s == "2022-05-01" then some 20220501
  else if s == "2023-01-01" then some 20230101
  else none

/-- Two rows with the same email key: a real date and a missing one. -/
def dfC1w : DataFrame :=
  ⟨["name", "email", "last_clean_date"],
   [(0, [("name", Value.str "Jo"), ("email", Value.str "x@y.com"),
      ("last_clean_date", Value.str "2022-05-01")]),
    (1, [("name", Value.str "Jo"), ("email", Value.str "x@y.com"),
      ("last_clean_date", Value.str "")])]⟩

/-- A table with names only: no email column at all. -/
def dfC2w : DataFrame :=
  ⟨["full_name"],
   [(0, [("full_name", Value.str "Ann")]),
    (1, [("full_name", Value.str "Bob")])]⟩

/-- Two rows with the same email key and no date column. -/
def dfC3w : DataFrame :=
  ⟨["name", "email"],
   [(0, [("name", Value.str "A"), ("email", Value.str "x@y.com")]),
    (1, [("name", Value.str "B"), ("email", Value.str "x@y.com")])]⟩

/-- One row whose required `full_name` is blank, one complete row. -/
def dfW4 : DataFrame :=
  ⟨["full_name", "email"],
   [(0, [("full_name", Value.str "   "), ("email", Value.str "a@b.c")]),
    (1, [("full_name", Value.str "Ok Guy"), ("email", Value.str "d@e.f")])]⟩

/-- Name parts only: `full_name` must be synthesized. -/
def dfC7w : DataFrame :=
  ⟨["first name", "last name", "email"],
   [(0, [("first name", Value.str "Ann"), ("last name", Value.str "Lee"),
      ("email", Value.str " A@B.Com ")])]⟩

/-- The `full_name` row of `dfC7w` after projection and synthesis. -/
def rowC7 : Nat × Cells :=
  (0, [("first_name", Value.str "Ann"), ("last_name", Value.str "Lee"),
    ("email", Value.str " A@B.Com "), ("full_name", Value.str "Ann Lee")])

/-- A single-column table whose header is an alias, not the canonical name. -/
def dfC8w : DataFrame :=
  ⟨["Name"], [(0, [("Name", Value.str "Ann")])]⟩

/-- A configuration whose dedupe key is neither allowed value. -/
def cfgPhone : CleanConfig :=
  ⟨"last_clean_date", "phone", ["full_name"], none⟩

/-! ## Character-level lemmas -/

theorem char_toNat_ofNat_small {n : Nat} (h : n < 55296) : (Char.ofNat n).toNat = n := by
  have hv : n.isValidChar := Or.inl h
  rw [Char.ofNat, dif_pos hv]
  rfl

theorem char_eq_iff_toNat {c d : Char} : c = d ↔ c.toNat = d.toNat := by
  constructor
  · intro h; rw [h]
  · intro h
    apply Char.eq_of_val_eq
    exact UInt32.ext h

theorem lowerChar_of_not_upper {c : Char} (h : ¬(65 ≤ c.toNat ∧ c.toNat ≤ 90)) :
    lowerChar c = c := if_neg h

theorem lowerChar_toNat_of_upper {c : Char} (h : 65 ≤ c.toNat ∧ c.toNat ≤ 90) :
    (lowerChar c).toNat = c.toNat + 32 := by
  rw [lowerChar, if_pos h]
  exact char_toNat_ofNat_small (by omega)

theorem lowerChar_idem (c : Char) : lowerChar (lowerChar c) = lowerChar c := by
  by_cases h : 65 ≤ c.toNat ∧ c.toNat ≤ 90
  · exact lowerChar_of_not_upper (by rw [lowerChar_toNat_of_upper h]; omega)
  · simp only [ lowerChar_of_not_upper h]

theorem lowerChar_not_upper (c : Char) :
    ¬(65 ≤ (lowerChar c).toNat ∧ (lowerChar c).toNat ≤ 90) := by
  by_cases h : 65 ≤ c.toNat ∧ c.toNat ≤ 90
  · rw [lowerChar_toNat_of_upper h]; omega
  · rw [lowerChar_of_not_upper h]; exact h

theorem isWs_iff {c : Char} : isWs c = true ↔
    c.toNat = 32 ∨ c.toNat = 9 ∨ c.toNat = 10 ∨ c.toNat = 13 ∨ c.toNat = 11 ∨ c.toNat = 12 := by
  have h32 : (' ' : Char).toNat = 32 := rfl
  have h9 : ('\t' : Char).toNat = 9 := rfl
  have h10 : ('\n' : Char).toNat = 10 := rfl
  have h13 : ('\r' : Char).toNat = 13 := rfl
  have h11 : ('\x0b' : Char).toNat = 11 := rfl
  have h12 : ('\x0c' : Char).toNat = 12 := rfl
  simp only [isWs, Bool.or_eq_true, beq_iff_eq, char_eq_iff_toNat, h32, h9, h10, h13, h11, h12]
  tauto

theorem isWs_lowerChar (c : Char) : isWs (lowerChar c) = isWs c := by
  by_cases h : 65 ≤ c.toNat ∧ c.toNat ≤ 90
  · have h2 := lowerChar_toNat_of_upper h
    have l1 : isWs (lowerChar c) = false := by
      rw [← Bool.not_eq_true, isWs_iff]; omega
    have l2 : isWs c = false := by
      rw [← Bool.not_eq_true, isWs_iff]; omega
    rw [l1, l2]
  · rw [lowerChar_of_not_upper h]

/-! ## String normalization lemmas: `strip`, `lower`, whitespace collapse -/

theorem stripChars_eq_rdrop (l : List Char) :
    stripChars l = List.rdropWhile isWs (l.dropWhile isWs) := by
  rfl

theorem stripChars_idem (l : List Char) : stripChars (stripChars l) = stripChars l := by
  rw [stripChars_eq_rdrop, stripChars_eq_rdrop]
  have hpre : List.rdropWhile isWs (l.dropWhile isWs) <+: l.dropWhile isWs :=
    List.rdropWhile_prefix isWs (l.dropWhile isWs)
  have hdw : (List.rdropWhile isWs (l.dropWhile isWs)).dropWhile isWs =
      List.rdropWhile isWs (l.dropWhile isWs) := by
    rcases hm : List.rdropWhile isWs (l.dropWhile isWs) with _ | ⟨a, t⟩
    · rfl
    · rw [List.dropWhile_cons]
      have ha : isWs a = false := by
        rw [hm] at hpre
        rcases hpre with ⟨s, hs⟩
        have hds : l.dropWhile isWs = a :: (t ++ s) := by rw [← hs]; simp
        have hopt : (l.dropWhile isWs).head? = some a := by rw [hds]; rfl
        have hh := List.head?_dropWhile_not isWs l
        rw [hopt] at hh
        exact hh
      simp [ha]
  rw [hdw, List.rdropWhile_idempotent]

theorem stripChars_map_lowerChar (l : List Char) :
    stripChars (l.map lowerChar) = (stripChars l).map lowerChar := by
  have hws : (fun c => isWs (lowerChar c)) = isWs := funext isWs_lowerChar
  unfold stripChars
  rw [List.dropWhile_map]
  show ((List.map lowerChar _).reverse.dropWhile isWs).reverse = _
  rw [← List.map_reverse, List.dropWhile_map, ← List.map_reverse]
  simp only [Function.comp_def, isWs_lowerChar]

theorem map_lowerChar_idem (l : List Char) :
    (l.map lowerChar).map lowerChar = l.map lowerChar := by
  rw [List.map_map]
  apply List.map_congr_left
  intro a _
  exact lowerChar_idem a

theorem pyStrip_idem (s : String) : pyStrip (pyStrip s) = pyStrip s :=
  congrArg String.mk (stripChars_idem s.data)

theorem pyLower_idem (s : String) : pyLower (pyLower s) = pyLower s :=
  congrArg String.mk (map_lowerChar_idem s.data)

theorem pyStrip_pyLower (s : String) : pyStrip (pyLower s) = pyLower (pyStrip s) :=
  congrArg String.mk (stripChars_map_lowerChar s.data)

/-- The email normalization `strip` then `lower` is idempotent. -/
theorem emailNorm_idem (s : String) :
    pyLower (pyStrip (pyLower (pyStrip s))) = pyLower (pyStrip s) := by
  rw [pyStrip_pyLower, pyStrip_idem, pyLower_idem]

theorem collapseWsChars_singleton (c : Char) :
    collapseWsChars [c] = if isWs c then [' '] else [c] := rfl

theorem collapseWsChars_cons_cons (c d : Char) (ds : List Char) :
    collapseWsChars (c :: d :: ds) =
      if isWs c then
        (if isWs d then collapseWsChars (d :: ds) else ' ' :: collapseWsChars (d :: ds))
      else c :: collapseWsChars (d :: ds) := rfl

theorem head?_collapseWsChars (l : List Char) :
    (collapseWsChars l).head? = l.head?.map (fun d => if isWs d then ' ' else d) := by
  induction l with
  | nil => rfl
  | cons c cs ih =>
    rcases cs with _ | ⟨d, ds⟩
    · rw [collapseWsChars_singleton]
      by_cases hc : isWs c = true <;> simp [hc]
    · rw [collapseWsChars_cons_cons]
      by_cases hc : isWs c = true
      · by_cases hd : isWs d = true
        · simp [hc, hd, ih]
        · simp [hc, hd]
      · simp [hc]

theorem goodWs_cons_of_head {c : Char} {cs : List Char} (hcs : goodWs cs)
    (hhead : ∀ b, cs.head? = some b → isWs c = false ∨ isWs b = false)
    (hsp : isWs c = true → c = ' ') : goodWs (c :: cs) := by
  refine ⟨?_, ?_⟩
  · rw [List.chain'_cons']
    exact ⟨fun b hb => hhead b hb, hcs.1⟩
  · intro x hx hws
    rcases List.mem_cons.mp hx with hx | hx
    · rw [hx] at hws ⊢; exact hsp hws
    · exact hcs.2 x hx hws

theorem goodWs_collapseWsChars (l : List Char) : goodWs (collapseWsChars l) := by
  induction l with
  | nil => exact ⟨List.chain'_nil, fun c hc _ => absurd hc (List.not_mem_nil c)⟩
  | cons c cs ih =>
    rcases cs with _ | ⟨d, ds⟩
    · rw [collapseWsChars_singleton]
      by_cases hc : isWs c = true
      · rw [if_pos hc]
        exact ⟨List.chain'_singleton _, by intro x hx _; simpa using hx⟩
      · rw [if_neg hc]
        refine ⟨List.chain'_singleton _, ?_⟩
        intro x hx hws
        simp only [List.mem_singleton] at hx
        rw [hx] at hws
        exact absurd hws hc
    · rw [collapseWsChars_cons_cons]
      by_cases hc : isWs c = true
      · by_cases hd : isWs d = true
        · simpa [hc, hd] using ih
        · rw [if_pos hc, if_neg hd]
          apply goodWs_cons_of_head ih
          · intro b hb
            rw [head?_collapseWsChars] at hb
            have hb2 : (if isWs d = true then ' ' else d) = b := Option.some.inj hb
            rw [if_neg hd] at hb2
            right
            rw [← hb2]
            simpa using hd
          · intro _; rfl
      · rw [if_neg hc]
        apply goodWs_cons_of_head ih
        · intro b _
          exact Or.inl (by simpa using hc)
        · intro hws
          exact absurd hws hc

theorem collapseWsChars_of_goodWs {l : List Char} (h : goodWs l) :
    collapseWsChars l = l := by
  induction l with
  | nil => rfl
  | cons c cs ih =>
    have htail : goodWs cs :=
      ⟨h.1.tail, fun x hx hws => h.2 x (List.mem_cons_of_mem c hx) hws⟩
    rcases cs with _ | ⟨d, ds⟩
    · rw [collapseWsChars_singleton]
      by_cases hc : isWs c = true
      · have hsp : c = ' ' := h.2 c (List.mem_cons_self c []) hc
        rw [if_pos hc, hsp]
      · rw [if_neg hc]
    · rw [collapseWsChars_cons_cons]
      by_cases hc : isWs c = true
      · have hsp : c = ' ' := h.2 c (List.mem_cons_self c (d :: ds)) hc
        have hd : isWs d = false := by
          have hcc := List.chain'_cons.mp h.1
          rcases hcc.1 with h1 | h1
          · rw [hc] at h1; exact absurd h1 (by simp)
          · exact h1
        rw [if_pos hc, if_neg (by simp [hd]), ih htail, hsp]
      · rw [if_neg hc, ih htail]

theorem goodWs_suffix {l l₁ : List Char} (h : goodWs l) (hs : l₁ <:+ l) : goodWs l₁ :=
  ⟨ List.Chain'.suffix h.1 hs, fun c hc hws => h.2 c (hs.subset hc) hws⟩

theorem goodWs_reverse {l : List Char} (h : goodWs l) : goodWs l.reverse := by
  refine ⟨?_, ?_⟩
  · rw [List.chain'_reverse]
    exact h.1.imp (fun a b hab => Or.symm hab)
  · intro c hc hws
    exact h.2 c (List.mem_reverse.mp hc) hws

theorem goodWs_stripChars {l : List Char} (h : goodWs l) : goodWs (stripChars l) := by
  unfold stripChars
  apply goodWs_reverse
  apply goodWs_suffix (goodWs_reverse (goodWs_suffix h (List.dropWhile_suffix isWs)))
  exact List.dropWhile_suffix isWs

/-- Collapsing whitespace again after collapse-then-strip changes nothing. -/
theorem collapse_strip_collapse (l : List Char) :
    collapseWsChars (stripChars (collapseWsChars l)) = stripChars (collapseWsChars l) :=
  collapseWsChars_of_goodWs (goodWs_stripChars (goodWs_collapseWsChars l))

/-- The `full_name` normalization (collapse whitespace, then strip) is
idempotent. -/
theorem fullNorm_idem (s : String) :
    pyStrip (collapseSpaces (pyStrip (collapseSpaces s))) = pyStrip (collapseSpaces s) := by
  have h1 : collapseSpaces (pyStrip (collapseSpaces s)) = pyStrip (collapseSpaces s) :=
    congrArg String.mk (collapse_strip_collapse s.data)
  rw [h1, pyStrip_idem]

/-! ## Deduplication lemmas: `keepLast`, `dedupAdj`, `dupKeys` -/

theorem keepLast_sublist (key : α → String) (l : List α) : List.Sublist (keepLast key l) l := by
  induction l with
  | nil => simp [keepLast]
  | cons a as ih =>
    rw [keepLast]
    by_cases h : as.any (fun b => key b == key a) = true
    · rw [if_pos h]
      exact ih.cons a
    · rw [if_neg h]
      exact ih.cons₂ a

theorem mem_map_key_keepLast {key : α → String} {l : List α} {k : String} :
    k ∈ (keepLast key l).map key ↔ k ∈ l.map key := by
  induction l with
  | nil => simp [keepLast]
  | cons a as ih =>
    rw [keepLast]
    by_cases h : as.any (fun b => key b == key a) = true
    · rw [if_pos h]
      rw [List.any_eq_true] at h
      rcases h with ⟨b, hb, hkb⟩
      rw [beq_iff_eq] at hkb
      simp only [List.map_cons, List.mem_cons]
      rw [ih]
      constructor
      · intro h2; right; exact h2
      · rintro (h2 | h2)
        · rw [h2, ← hkb]
          exact List.mem_map_of_mem key hb
        · exact h2
    · rw [if_neg h]
      simp only [List.map_cons, List.mem_cons, ih]

theorem nodup_map_key_keepLast (key : α → String) (l : List α) :
    ((keepLast key l).map key).Nodup := by
  induction l with
  | nil => simp [keepLast]
  | cons a as ih =>
    rw [keepLast]
    by_cases h : as.any (fun b => key b == key a) = true
    · rw [if_pos h]; exact ih
    · rw [if_neg h]
      rw [Bool.not_eq_true, List.any_eq_false] at h
      simp only [List.map_cons, List.nodup_cons]
      refine ⟨?_, ih⟩
      intro hmem
      rw [mem_map_key_keepLast] at hmem
      rcases List.mem_map.mp hmem with ⟨b, hb, hkb⟩
      exact absurd (by rw [beq_iff_eq]; exact hkb) (h b hb)

theorem mem_dedupAdj {l : List String} {x : String} : x ∈ dedupAdj l ↔ x ∈ l := by
  induction l with
  | nil => simp [dedupAdj]
  | cons a as ih =>
    rcases as with _ | ⟨b, bs⟩
    · simp [dedupAdj]
    · rw [dedupAdj]
      by_cases h : a == b
      · rw [if_pos h, ih]
        rw [beq_iff_eq] at h
        simp only [List.mem_cons]
        constructor
        · intro h2; right; exact h2
        · rintro (h2 | h2)
          · left; rw [h2, h]
          · exact h2
      · rw [if_neg h]
        simp only [List.mem_cons, ih]

theorem dupKeys_eq_nil_of_nodup {rows : List (Nat × Cells)}
    (h : (rows.map (fun r => storedKey r.2)).Nodup) : dupKeys rows = [] := by
  rw [dupKeys]
  rw [List.filter_eq_nil_iff]
  intro k hk
  have hmem : k ∈ rows.map (fun r => storedKey r.2) := by
    have h1 := mem_dedupAdj.mp hk
    exact (List.perm_insertionSort strRel _).mem_iff.mp h1
  have hcount := List.count_eq_one_of_mem h hmem
  simp only [decide_eq_true_eq]
  omega

/-! ## Auto-mapping lemmas -/

theorem mem_of_lookup_eq_some {β : Type} {l : List (String × β)} {k : String} {v : β}
    (h : l.lookup k = some v) : (k, v) ∈ l := by
  induction l with
  | nil => simp at h
  | cons p ps ih =>
    rcases p with ⟨k1, v1⟩
    rw [List.lookup_cons] at h
    by_cases hk : (k == k1) = true
    · rw [hk] at h
      have hv : v1 = v := Option.some.inj h
      have hkk : k = k1 := by rwa [beq_iff_eq] at hk
      rw [hkk, ← hv]
      exact List.mem_cons_self _ _
    · rw [Bool.not_eq_true] at hk
      rw [hk] at h
      exact List.mem_cons_of_mem _ (ih h)

theorem lookup_isSome_of_mem_keys {β : Type} {l : List (String × β)} {k : String}
    (h : k ∈ l.map Prod.fst) : ∃ v, l.lookup k = some v := by
  induction l with
  | nil => simp at h
  | cons p ps ih =>
    rcases p with ⟨k1, v1⟩
    rw [List.lookup_cons]
    by_cases hk : (k == k1) = true
    · rw [hk]; exact ⟨v1, rfl⟩
    · have hk2 : (k == k1) = false := by rwa [Bool.not_eq_true] at hk
      rw [hk2]
      apply ih
      simp only [List.map_cons, List.mem_cons] at h
      rcases h with h | h
      · exact absurd (by rw [beq_iff_eq]; exact h) hk
      · exact h

theorem revLookup_some {cols : List String} {k v : String}
    (h : (revLookupList cols).lookup k = some v) :
    v ∈ cols ∧ _normalize_header v = k := by
  have hmem := mem_of_lookup_eq_some h
  rw [revLookupList, List.mem_reverse] at hmem
  rcases List.mem_map.mp hmem with ⟨c, hc, hpair⟩
  have h1 : _normalize_header c = k := congrArg Prod.fst hpair
  have h2 : c = v := congrArg Prod.snd hpair
  rw [← h2]
  exact ⟨hc, h1⟩

theorem revLookup_isSome_of_mem {cols : List String} {x : String} (hx : x ∈ cols) :
    ∃ v, (revLookupList cols).lookup (_normalize_header x) = some v := by
  apply lookup_isSome_of_mem_keys
  rw [revLookupList, List.map_reverse, List.mem_reverse, List.map_map]
  exact List.mem_map_of_mem _ hx

/-- The normalized forms of the eight canonical field names. -/
theorem canonNorms_eq : canonicalKeys.map _normalize_header =
    ["full name", "first name", "last name", "email", "phone", "last clean date",
     "clean type", "invoice amount brutto"] := by rfl

theorem canon_norm_inj : ∀ c ∈ canonicalKeys, ∀ d ∈ canonicalKeys,
    _normalize_header c = _normalize_header d → c = d :=
  List.inj_on_of_nodup_map (by rw [canonNorms_eq]; decide)

theorem revLookup_none_of_not_canonNorm {cols : List String}
    (hsub : ∀ c ∈ cols, c ∈ canonicalKeys) {k : String}
    (hno : k ∉ canonicalKeys.map _normalize_header) :
    (revLookupList cols).lookup k = none := by
  cases hl : (revLookupList cols).lookup k with
  | none => rfl
  | some v =>
    exfalso
    have hv := revLookup_some hl
    apply hno
    rw [← hv.2]
    exact List.mem_map_of_mem _ (hsub v hv.1)

theorem revLookup_self {cols : List String}
    (hsub : ∀ c ∈ cols, c ∈ canonicalKeys) {f : String}
    (hf : f ∈ canonicalKeys) :
    (revLookupList cols).lookup (_normalize_header f) =
      if f ∈ cols then some f else none := by
  by_cases hin : f ∈ cols
  · rw [if_pos hin]
    rcases revLookup_isSome_of_mem hin with ⟨v, hv⟩
    have h2 := revLookup_some hv
    have : v = f := canon_norm_inj v (hsub v h2.1) f hf h2.2
    rw [hv, this]
  · rw [if_neg hin]
    cases hl : (revLookupList cols).lookup (_normalize_header f) with
    | none => rfl
    | some v =>
      exfalso
      have h2 := revLookup_some hl
      have : v = f := canon_norm_inj v (hsub v h2.1) f hf h2.2
      rw [this] at h2
      exact hin h2.1

theorem firstAliasMatch_cons (rev : List (String × String)) (a : String) (rest : List String) :
    firstAliasMatch rev (a :: rest) =
      match rev.lookup (_normalize_header a) with
      | some orig => some orig
      | none => firstAliasMatch rev rest := rfl

theorem _build_auto_mapping_eq (columns : List String) :
    _build_auto_mapping columns =
      COMMON_ALIASES.filterMap (autoMapEntry (revLookupList columns)) := rfl

theorem lookup_filterMap_skip {rev : List (String × String)} {g : String} {as : List String}
    {rest : List (String × List String)} {f : String} (hne : (f == g) = false) :
    (List.filterMap (autoMapEntry rev) ((g, as) :: rest)).lookup f =
      (List.filterMap (autoMapEntry rev) rest).lookup f := by
  rw [List.filterMap_cons]
  cases hm : autoMapEntry rev (g, as) with
  | none => rfl
  | some p =>
    have hp : p.1 = g := by
      rw [autoMapEntry] at hm
      cases hfa : firstAliasMatch rev (g, as).2 with
      | none => rw [hfa] at hm; exact absurd hm (by simp)
      | some o => rw [hfa] at hm; rw [← Option.some.inj hm]
    rcases p with ⟨p1, p2⟩
    rw [List.lookup_cons]
    have hp1 : p1 = g := hp
    have : (f == p1) = false := by rw [hp1]; exact hne
    rw [this]

theorem lookup_filterMap_head {rev : List (String × String)} {f : String} {as : List String}
    {rest : List (String × List String)} :
    (List.filterMap (autoMapEntry rev) ((f, as) :: rest)).lookup f =
      (match firstAliasMatch rev as with
       | some orig => some orig
       | none => (List.filterMap (autoMapEntry rev) rest).lookup f) := by
  rw [List.filterMap_cons]
  cases hm : firstAliasMatch rev as with
  | none =>
    have : autoMapEntry rev (f, as) = none := by rw [autoMapEntry]; rw [hm]
    rw [this]
  | some o =>
    have : autoMapEntry rev (f, as) = some (f, o) := by rw [autoMapEntry]; rw [hm]
    rw [this, List.lookup_cons]
    have hf : (f == f) = true := beq_self_eq_true f
    rw [hf]

theorem autoMap_full_name {cols : List String} (hsub : ∀ c ∈ cols, c ∈ canonicalKeys) :
    (_build_auto_mapping cols).lookup "full_name" =
      if "full_name" ∈ cols then some "full_name" else none := by
  rw [_build_auto_mapping_eq]
  simp only [COMMON_ALIASES]
  rw [lookup_filterMap_head, firstAliasMatch_cons]
  rw [show _normalize_header "full name" = _normalize_header "full_name" from rfl]
  rw [ revLookup_self hsub (show "full_name" ∈ canonicalKeys by decide)]
  by_cases hin : "full_name" ∈ cols
  · rw [if_pos hin]
  · rw [if_neg hin]
    rw [firstAliasMatch_cons,
      revLookup_none_of_not_canonNorm hsub (show _normalize_header "name" ∉ _ by rw [canonNorms_eq]; decide)]
    rw [firstAliasMatch_cons,
      revLookup_none_of_not_canonNorm hsub (show _normalize_header "contact name" ∉ _ by rw [canonNorms_eq]; decide)]
    rw [firstAliasMatch_cons,
      revLookup_none_of_not_canonNorm hsub (show _normalize_header "customer name" ∉ _ by rw [canonNorms_eq]; decide)]
    rw [lookup_filterMap_skip (show (("full_name" : String) == "first_name") = false by decide)]
    rw [lookup_filterMap_skip (show (("full_name" : String) == "last_name") = false by decide)]
    rw [lookup_filterMap_skip (show (("full_name" : String) == "email") = false by decide)]
    rw [lookup_filterMap_skip (show (("full_name" : String) == "phone") = false by decide)]
    rw [lookup_filterMap_skip (show (("full_name" : String) == "last_clean_date") = false by decide)]
    rw [lookup_filterMap_skip (show (("full_name" : String) == "clean_type") = false by decide)]
    rw [lookup_filterMap_skip (show (("full_name" : String) == "invoice_amount_brutto") = false by decide)]
    rfl

theorem autoMap_first_name {cols : List String} (hsub : ∀ c ∈ cols, c ∈ canonicalKeys) :
    (_build_auto_mapping cols).lookup "first_name" =
      if "first_name" ∈ cols then some "first_name" else none := by
  rw [_build_auto_mapping_eq]
  simp only [COMMON_ALIASES]
  rw [lookup_filterMap_skip (show (("first_name" : String) == "full_name") = false by decide)]
  rw [lookup_filterMap_head]
  rw [firstAliasMatch_cons]
  rw [show _normalize_header "first name" = _normalize_header "first_name" from rfl]
  rw [ revLookup_self hsub (show "first_name" ∈ canonicalKeys by decide)]
  by_cases hin : "first_name" ∈ cols
  · rw [if_pos hin]
  · rw [if_neg hin]
    rw [firstAliasMatch_cons,
      revLookup_none_of_not_canonNorm hsub (show _normalize_header "firstname" ∉ _ by rw [canonNorms_eq]; decide)]
    rw [firstAliasMatch_cons,
      revLookup_none_of_not_canonNorm hsub (show _normalize_header "given name" ∉ _ by rw [canonNorms_eq]; decide)]
    rw [lookup_filterMap_skip (show (("first_name" : String) == "last_name") = false by decide)]
    rw [lookup_filterMap_skip (show (("first_name" : String) == "email") = false by decide)]
    rw [lookup_filterMap_skip (show (("first_name" : String) == "phone") = false by decide)]
    rw [lookup_filterMap_skip (show (("first_name" : String) == "last_clean_date") = false by decide)]
    rw [lookup_filterMap_skip (show (("first_name" : String) == "clean_type") = false by decide)]
    rw [lookup_filterMap_skip (show (("first_name" : String) == "invoice_amount_brutto") = false by decide)]
    rfl

theorem autoMap_last_name {cols : List String} (hsub : ∀ c ∈ cols, c ∈ canonicalKeys) :
    (_build_auto_mapping cols).lookup "last_name" =
      if "last_name" ∈ cols then some "last_name" else none := by
  rw [_build_auto_mapping_eq]
  simp only [COMMON_ALIASES]
  rw [lookup_filterMap_skip (show (("last_name" : String) == "full_name") = false by decide)]
  rw [lookup_filterMap_skip (show (("last_name" : String) == "first_name") = false by decide)]
  rw [lookup_filterMap_head]
  rw [firstAliasMatch_cons]
  rw [show _normalize_header "last name" = _normalize_header "last_name" from rfl]
  rw [ revLookup_self hsub (show "last_name" ∈ canonicalKeys by decide)]
  by_cases hin : "last_name" ∈ cols
  · rw [if_pos hin]
  · rw [if_neg hin]
    rw [firstAliasMatch_cons,
      revLookup_none_of_not_canonNorm hsub (show _normalize_header "lastname" ∉ _ by rw [canonNorms_eq]; decide)]
    rw [firstAliasMatch_cons,
      revLookup_none_of_not_canonNorm hsub (show _normalize_header "surname" ∉ _ by rw [canonNorms_eq]; decide)]
    rw [firstAliasMatch_cons,
      revLookup_none_of_not_canonNorm hsub (show _normalize_header "family name" ∉ _ by rw [canonNorms_eq]; decide)]
    rw [lookup_filterMap_skip (show (("last_name" : String) == "email") = false by decide)]
    rw [lookup_filterMap_skip (show (("last_name" : String) == "phone") = false by decide)]
    rw [lookup_filterMap_skip (show (("last_name" : String) == "last_clean_date") = false by decide)]
    rw [lookup_filterMap_skip (show (("last_name" : String) == "clean_type") = false by decide)]
    rw [lookup_filterMap_skip (show (("last_name" : String) == "invoice_amount_brutto") = false by decide)]
    rfl

theorem autoMap_email {cols : List String} (hsub : ∀ c ∈ cols, c ∈ canonicalKeys) :
    (_build_auto_mapping cols).lookup "email" =
      if "email" ∈ cols then some "email" else none := by
  rw [_build_auto_mapping_eq]
  simp only [COMMON_ALIASES]
  rw [lookup_filterMap_skip (show (("email" : String) == "full_name") = false by decide)]
  rw [lookup_filterMap_skip (show (("email" : String) == "first_name") = false by decide)]
  rw [lookup_filterMap_skip (show (("email" : String) == "last_name") = false by decide)]
  rw [lookup_filterMap_head]
  rw [firstAliasMatch_cons]
  rw [ revLookup_self hsub (show "email" ∈ canonicalKeys by decide)]
  by_cases hin : "email" ∈ cols
  · rw [if_pos hin]
  · rw [if_neg hin]
    rw [firstAliasMatch_cons,
      revLookup_none_of_not_canonNorm hsub (show _normalize_header "e-mail" ∉ _ by rw [canonNorms_eq]; decide)]
    rw [firstAliasMatch_cons,
      revLookup_none_of_not_canonNorm hsub (show _normalize_header "email address" ∉ _ by rw [canonNorms_eq]; decide)]
    rw [lookup_filterMap_skip (show (("email" : String) == "phone") = false by decide)]
    rw [lookup_filterMap_skip (show (("email" : String) == "last_clean_date") = false by decide)]
    rw [lookup_filterMap_skip (show (("email" : String) == "clean_type") = false by decide)]
    rw [lookup_filterMap_skip (show (("email" : String) == "invoice_amount_brutto") = false by decide)]
    rfl

theorem autoMap_phone {cols : List String} (hsub : ∀ c ∈ cols, c ∈ canonicalKeys) :
    (_build_auto_mapping cols).lookup "phone" =
      if "phone" ∈ cols then some "phone" else none := by
  rw [_build_auto_mapping_eq]
  simp only [COMMON_ALIASES]
  rw [lookup_filterMap_skip (show (("phone" : String) == "full_name") = false by decide)]
  rw [lookup_filterMap_skip (show (("phone" : String) == "first_name") = false by decide)]
  rw [lookup_filterMap_skip (show (("phone" : String) == "last_name") = false by decide)]
  rw [lookup_filterMap_skip (show (("phone" : String) == "email") = false by decide)]
  rw [lookup_filterMap_head]
  rw [firstAliasMatch_cons]
  rw [ revLookup_self hsub (show "phone" ∈ canonicalKeys by decide)]
  by_cases hin : "phone" ∈ cols
  · rw [if_pos hin]
  · rw [if_neg hin]
    rw [firstAliasMatch_cons,
      revLookup_none_of_not_canonNorm hsub (show _normalize_header "telephone" ∉ _ by rw [canonNorms_eq]; decide)]
    rw [firstAliasMatch_cons,
      revLookup_none_of_not_canonNorm hsub (show _normalize_header "mobile" ∉ _ by rw [canonNorms_eq]; decide)]
    rw [lookup_filterMap_skip (show (("phone" : String) == "last_clean_date") = false by decide)]
    rw [lookup_filterMap_skip (show (("phone" : String) == "clean_type") = false by decide)]
    rw [lookup_filterMap_skip (show (("phone" : String) == "invoice_amount_brutto") = false by decide)]
    rfl

theorem autoMap_last_clean_date {cols : List String} (hsub : ∀ c ∈ cols, c ∈ canonicalKeys) :
    (_build_auto_mapping cols).lookup "last_clean_date" =
      if "last_clean_date" ∈ cols then some "last_clean_date" else none := by
  rw [_build_auto_mapping_eq]
  simp only [COMMON_ALIASES]
  rw [lookup_filterMap_skip (show (("last_clean_date" : String) == "full_name") = false by decide)]
  rw [lookup_filterMap_skip (show (("last_clean_date" : String) == "first_name") = false by decide)]
  rw [lookup_filterMap_skip (show (("last_clean_date" : String) == "last_name") = false by decide)]
  rw [lookup_filterMap_skip (show (("last_clean_date" : String) == "email") = false by decide)]
  rw [lookup_filterMap_skip (show (("last_clean_date" : String) == "phone") = false by decide)]
  rw [lookup_filterMap_head]
  rw [firstAliasMatch_cons]
  rw [show _normalize_header "last clean date" = _normalize_header "last_clean_date" from rfl]
  rw [ revLookup_self hsub (show "last_clean_date" ∈ canonicalKeys by decide)]
  by_cases hin : "last_clean_date" ∈ cols
  · rw [if_pos hin]
  · rw [if_neg hin]
    rw [firstAliasMatch_cons]
    rw [ revLookup_self hsub (show "last_clean_date" ∈ canonicalKeys by decide)]
    rw [if_neg hin]
    rw [firstAliasMatch_cons,
      revLookup_none_of_not_canonNorm hsub (show _normalize_header "last service date" ∉ _ by rw [canonNorms_eq]; decide)]
    rw [firstAliasMatch_cons,
      revLookup_none_of_not_canonNorm hsub (show _normalize_header "service date" ∉ _ by rw [canonNorms_eq]; decide)]
    rw [firstAliasMatch_cons,
      revLookup_none_of_not_canonNorm hsub (show _normalize_header "date" ∉ _ by rw [canonNorms_eq]; decide)]
    rw [lookup_filterMap_skip (show (("last_clean_date" : String) == "clean_type") = false by decide)]
    rw [lookup_filterMap_skip (show (("last_clean_date" : String) == "invoice_amount_brutto") = false by decide)]
    rfl

theorem autoMap_clean_type {cols : List String} (hsub : ∀ c ∈ cols, c ∈ canonicalKeys) :
    (_build_auto_mapping cols).lookup "clean_type" =
      if "clean_type" ∈ cols then some "clean_type" else none := by
  rw [_build_auto_mapping_eq]
  simp only [COMMON_ALIASES]
  rw [lookup_filterMap_skip (show (("clean_type" : String) == "full_name") = false by decide)]
  rw [lookup_filterMap_skip (show (("clean_type" : String) == "first_name") = false by decide)]
  rw [lookup_filterMap_skip (show (("clean_type" : String) == "last_name") = false by decide)]
  rw [lookup_filterMap_skip (show (("clean_type" : String) == "email") = false by decide)]
  rw [lookup_filterMap_skip (show (("clean_type" : String) == "phone") = false by decide)]
  rw [lookup_filterMap_skip (show (("clean_type" : String) == "last_clean_date") = false by decide)]
  rw [lookup_filterMap_head]
  rw [firstAliasMatch_cons]
  rw [show _normalize_header "clean type" = _normalize_header "clean_type" from rfl]
  rw [ revLookup_self hsub (show "clean_type" ∈ canonicalKeys by decide)]
  by_cases hin : "clean_type" ∈ cols
  · rw [if_pos hin]
  · rw [if_neg hin]
    rw [firstAliasMatch_cons,
      revLookup_none_of_not_canonNorm hsub (show _normalize_header "service" ∉ _ by rw [canonNorms_eq]; decide)]
    rw [firstAliasMatch_cons,
      revLookup_none_of_not_canonNorm hsub (show _normalize_header "service type" ∉ _ by rw [canonNorms_eq]; decide)]
    rw [firstAliasMatch_cons,
      revLookup_none_of_not_canonNorm hsub (show _normalize_header "type" ∉ _ by rw [canonNorms_eq]; decide)]
    rw [lookup_filterMap_skip (show (("clean_type" : String) == "invoice_amount_brutto") = false by decide)]
    rfl

theorem autoMap_invoice_amount_brutto {cols : List String} (hsub : ∀ c ∈ cols, c ∈ canonicalKeys) :
    (_build_auto_mapping cols).lookup "invoice_amount_brutto" =
      if "invoice_amount_brutto" ∈ cols then some "invoice_amount_brutto" else none := by
  rw [_build_auto_mapping_eq]
  simp only [COMMON_ALIASES]
  rw [lookup_filterMap_skip (show (("invoice_amount_brutto" : String) == "full_name") = false by decide)]
  rw [lookup_filterMap_skip (show (("invoice_amount_brutto" : String) == "first_name") = false by decide)]
  rw [lookup_filterMap_skip (show (("invoice_amount_brutto" : String) == "last_name") = false by decide)]
  rw [lookup_filterMap_skip (show (("invoice_amount_brutto" : String) == "email") = false by decide)]
  rw [lookup_filterMap_skip (show (("invoice_amount_brutto" : String) == "phone") = false by decide)]
  rw [lookup_filterMap_skip (show (("invoice_amount_brutto" : String) == "last_clean_date") = false by decide)]
  rw [lookup_filterMap_skip (show (("invoice_amount_brutto" : String) == "clean_type") = false by decide)]
  rw [lookup_filterMap_head]
  rw [firstAliasMatch_cons,
    revLookup_none_of_not_canonNorm hsub (show _normalize_header "invoice amount (brutto)" ∉ _ by rw [canonNorms_eq]; decide)]
  rw [firstAliasMatch_cons]
  rw [show _normalize_header "invoice amount brutto" = _normalize_header "invoice_amount_brutto" from rfl]
  rw [ revLookup_self hsub (show "invoice_amount_brutto" ∈ canonicalKeys by decide)]
  by_cases hin : "invoice_amount_brutto" ∈ cols
  · rw [if_pos hin]
  · rw [if_neg hin]
    rw [firstAliasMatch_cons,
      revLookup_none_of_not_canonNorm hsub (show _normalize_header "brutto" ∉ _ by rw [canonNorms_eq]; decide)]
    rw [firstAliasMatch_cons,
      revLookup_none_of_not_canonNorm hsub (show _normalize_header "gross" ∉ _ by rw [canonNorms_eq]; decide)]
    rw [firstAliasMatch_cons,
      revLookup_none_of_not_canonNorm hsub (show _normalize_header "invoice amount" ∉ _ by rw [canonNorms_eq]; decide)]
    rw [firstAliasMatch_cons,
      revLookup_none_of_not_canonNorm hsub (show _normalize_header "amount" ∉ _ by rw [canonNorms_eq]; decide)]
    rfl

/-- On a column set drawn from the canonical field names, the auto-mapper
maps every present canonical field to itself and leaves the rest unmapped. -/
theorem autoMap_lookup_canon {cols : List String} (hsub : ∀ c ∈ cols, c ∈ canonicalKeys)
    {f : String} (hf : f ∈ canonicalKeys) :
    (_build_auto_mapping cols).lookup f = if f ∈ cols then some f else none := by
  have hck : canonicalKeys =
      ["full_name", "first_name", "last_name", "email", "phone", "last_clean_date",
       "clean_type", "invoice_amount_brutto"] := rfl
  rw [hck] at hf
  simp only [List.mem_cons, List.not_mem_nil, or_false] at hf
  rcases hf with h | h | h | h | h | h | h | h
  · rw [h]; exact autoMap_full_name hsub
  · rw [h]; exact autoMap_first_name hsub
  · rw [h]; exact autoMap_last_name hsub
  · rw [h]; exact autoMap_email hsub
  · rw [h]; exact autoMap_phone hsub
  · rw [h]; exact autoMap_last_clean_date hsub
  · rw [h]; exact autoMap_clean_type hsub
  · rw [h]; exact autoMap_invoice_amount_brutto hsub

/-! ## Row access lemmas -/

theorem lookup_eq_none_of_not_mem_keys {β : Type} {l : List (String × β)} {k : String}
    (h : k ∉ l.map Prod.fst) : l.lookup k = none := by
  cases hl : l.lookup k with
  | none => rfl
  | some v => exact absurd (List.mem_map_of_mem Prod.fst (mem_of_lookup_eq_some hl)) h

theorem getVal_eq_na_of_not_mem {cells : Cells} {k : String}
    (h : k ∉ cells.map Prod.fst) : getVal cells k = Value.na := by
  rw [getVal, lookup_eq_none_of_not_mem_keys h]
  rfl

theorem getVal_cons_ne {k : String} {v : Value} {ps : Cells} {x : String}
    (h : (x == k) = false) : getVal ((k, v) :: ps) x = getVal ps x := by
  rw [getVal, getVal, List.lookup_cons, h]

theorem getVal_cons_eq {k : String} {v : Value} {ps : Cells} {x : String}
    (h : (x == k) = true) : getVal ((k, v) :: ps) x = v := by
  rw [getVal, List.lookup_cons, h]
  rfl

theorem getVal_map_cols {cols : List String} {g : String → Value} {x : String} :
    getVal (cols.map (fun c => (c, g c))) x = if x ∈ cols then g x else Value.na := by
  induction cols with
  | nil => simp [getVal]
  | cons c cs ih =>
    rw [List.map_cons, getVal, List.lookup_cons]
    by_cases hx : (x == c) = true
    · have hxc : x = c := by rwa [beq_iff_eq] at hx
      rw [hx, if_pos (by rw [hxc]; exact List.mem_cons_self c cs), hxc]
      rfl
    · have hne : x ≠ c := by simpa using hx
      have hx2 : (x == c) = false := by simpa using hx
      rw [hx2]
      change getVal (cs.map (fun c => (c, g c))) x = _
      rw [ih]
      simp [List.mem_cons, hne]

theorem getVal_mapCell_ne {cells : Cells} {c : String} {f : Value → Value} {x : String}
    (hx : x ≠ c) :
    getVal (cells.map (fun cell => if cell.1 == c then (cell.1, f cell.2) else cell)) x =
      getVal cells x := by
  induction cells with
  | nil => rfl
  | cons p ps ih =>
    rcases p with ⟨k, v⟩
    rw [List.map_cons]
    by_cases hkc : (k == c) = true
    · have hkc2 : k = c := by rwa [beq_iff_eq] at hkc
      have hxk : (x == k) = false := by
        rw [beq_eq_false_iff_ne]
        rw [hkc2]
        exact hx
      show getVal ((if ((k, v).1 == c) = true then ((k, v).1, f (k, v).2) else (k, v)) :: _) x = _
      rw [if_pos hkc]
      rw [getVal, List.lookup_cons, hxk, getVal, List.lookup_cons, hxk]
      exact ih
    · have hkc2 : (k == c) = false := by simpa using hkc
      show getVal ((if ((k, v).1 == c) = true then ((k, v).1, f (k, v).2) else (k, v)) :: _) x = _
      rw [if_neg (by simp [hkc2])]
      rw [getVal, List.lookup_cons, getVal, List.lookup_cons]
      by_cases hxk : (x == k) = true
      · rw [hxk]
      · have hxk2 : (x == k) = false := by simpa using hxk
        rw [hxk2]
        exact ih

theorem getVal_mapCell_self {cells : Cells} {c : String} {f : Value → Value} :
    getVal (cells.map (fun cell => if cell.1 == c then (cell.1, f cell.2) else cell)) c =
      ((cells.lookup c).map f).getD Value.na := by
  induction cells with
  | nil => rfl
  | cons p ps ih =>
    rcases p with ⟨k, v⟩
    rw [List.map_cons]
    by_cases hkc : (k == c) = true
    · have hkc2 : k = c := by rwa [beq_iff_eq] at hkc
      have hck : (c == k) = true := by rw [beq_iff_eq]; rw [hkc2]
      show getVal ((if ((k, v).1 == c) = true then ((k, v).1, f (k, v).2) else (k, v)) :: _) c = _
      rw [if_pos hkc]
      rw [getVal, List.lookup_cons, hck, List.lookup_cons, hck]
      rfl
    · have hkc2 : k ≠ c := by simpa using hkc
      have hck : (c == k) = false := by rw [beq_eq_false_iff_ne]; exact fun h => hkc2 h.symm
      show getVal ((if ((k, v).1 == c) = true then ((k, v).1, f (k, v).2) else (k, v)) :: _) c = _
      rw [if_neg (by simp [hkc])]
      rw [getVal, List.lookup_cons, hck, List.lookup_cons, hck]
      exact ih

theorem getVal_append_key {cells : Cells} {k : String} {v : Value} {x : String} :
    getVal (cells ++ [(k, v)]) x =
      if x ∈ cells.map Prod.fst then getVal cells x
      else if x = k then v else Value.na := by
  induction cells with
  | nil =>
    simp only [List.nil_append, List.map_nil, List.not_mem_nil, if_false]
    rw [getVal, List.lookup_cons]
    by_cases hxk : (x == k) = true
    · have : x = k := by rwa [beq_iff_eq] at hxk
      rw [hxk, if_pos this]
      rfl
    · have hne : x ≠ k := by simpa using hxk
      have hxk2 : (x == k) = false := by simpa using hxk
      rw [hxk2, if_neg hne]
      rfl
  | cons p ps ih =>
    rcases p with ⟨k1, v1⟩
    rw [List.cons_append, getVal, List.lookup_cons]
    by_cases hxk : (x == k1) = true
    · have hx1 : x = k1 := by rwa [beq_iff_eq] at hxk
      rw [hxk, if_pos (by rw [List.map_cons]; exact List.mem_cons.mpr (Or.inl hx1))]
      rw [getVal, List.lookup_cons, hxk]
    · have hxk2 : (x == k1) = false := by simpa using hxk
      have hne : x ≠ k1 := by simpa using hxk
      rw [hxk2]
      change getVal (ps ++ [(k, v)]) x = _
      rw [ih]
      by_cases hps : x ∈ ps.map Prod.fst
      · rw [if_pos hps, if_pos (by rw [List.map_cons]; exact List.mem_cons_of_mem _ hps)]
        rw [getVal_cons_ne hxk2]
      · have hcons : x ∉ List.map Prod.fst ((k1, v1) :: ps) := by
          rw [List.map_cons]
          simp [hne, hps]
        rw [if_neg hps, if_neg hcons]

theorem getVal_filter_keys {cells : Cells} {p : String → Bool} {x : String}
    (hx : p x = true) :
    getVal (cells.filter (fun cell => p cell.1)) x = getVal cells x := by
  induction cells with
  | nil => rfl
  | cons q ps ih =>
    rcases q with ⟨k, v⟩
    rw [List.filter_cons]
    by_cases hk : p (k, v).1 = true
    · rw [if_pos hk]
      rw [getVal, List.lookup_cons, getVal, List.lookup_cons]
      by_cases hxk : (x == k) = true
      · rw [hxk]
      · have hxk2 : (x == k) = false := by simpa using hxk
        rw [hxk2]
        exact ih
    · rw [if_neg hk]
      have hxk : (x == k) = false := by
        rw [beq_eq_false_iff_ne]
        intro h
        rw [← h] at hk
        exact hk hx
      rw [ih, getVal_cons_ne hxk]

/-! ## Table well-formedness -/

theorem canonicalKeys_nodup : canonicalKeys.Nodup := by decide

theorem contains_iff_mem {l : List String} {a : String} : l.contains a = true ↔ a ∈ l := by
  rw [List.contains_eq_any_beq, List.any_eq_true]
  constructor
  · rintro ⟨x, hx, he⟩
    rw [beq_iff_eq] at he
    rw [he]
    exact hx
  · intro h
    exact ⟨a, h, by rw [beq_iff_eq]⟩

theorem getVal_notPresent {t : CTable} (hwf : WF t) {r : Nat × Cells} (hr : r ∈ t.rows)
    {x : String} (hx : x ∉ t.present) : getVal r.2 x = Value.na :=
  getVal_eq_na_of_not_mem (by rw [hwf r hr]; exact hx)

theorem buildOut_present_sub (m : List (String × String)) (df : DataFrame) :
    ∀ c ∈ (buildOut m df).present, c ∈ canonicalKeys := by
  intro c hc
  simp only [buildOut] at hc
  exact (List.mem_filter.mp hc).1

theorem buildOut_present_nodup (m : List (String × String)) (df : DataFrame) :
    (buildOut m df).present.Nodup := by
  simp only [buildOut]
  exact canonicalKeys_nodup.filter _

theorem map_fst_pairs (P : List String) (g : String → Value) :
    (P.map (fun c => (c, g c))).map Prod.fst = P := by
  rw [List.map_map]
  have h : ∀ x ∈ P, (Prod.fst ∘ fun c => (c, g c)) x = id x := fun x _ => rfl
  rw [List.map_congr_left h, List.map_id]

theorem WF_buildOut (m : List (String × String)) (df : DataFrame) : WF (buildOut m df) := by
  intro r hr
  simp only [buildOut] at hr ⊢
  rcases List.mem_map.mp hr with ⟨r0, _, hre⟩
  rw [← hre]
  exact map_fst_pairs _ _

/-- The Boolean guard of the `full_name` synthesis step. -/
theorem synthFullName_eq (t : CTable) :
    synthFullName t =
      if (!t.present.contains "full_name" && t.present.contains "first_name"
          && t.present.contains "last_name") = true then
        { present := t.present ++ ["full_name"],
          rows := t.rows.map (fun r =>
            (r.1, r.2 ++ [("full_name",
              synthNameVal (getVal r.2 "first_name") (getVal r.2 "last_name"))])) }
      else t := rfl

theorem synth_present_mono {t : CTable} {c : String} (hc : c ∈ t.present) :
    c ∈ (synthFullName t).present := by
  rw [synthFullName_eq]
  split
  · exact List.mem_append_left _ hc
  · exact hc

theorem synth_present_sub {t : CTable} (hsub : ∀ c ∈ t.present, c ∈ canonicalKeys) :
    ∀ c ∈ (synthFullName t).present, c ∈ canonicalKeys := by
  intro c hc
  rw [synthFullName_eq] at hc
  split at hc
  · rcases List.mem_append.mp hc with h | h
    · exact hsub c h
    · rw [List.mem_singleton.mp h]; decide
  · exact hsub c hc

theorem synth_present_nodup {t : CTable} (hnd : t.present.Nodup) :
    (synthFullName t).present.Nodup := by
  rw [synthFullName_eq]
  split
  · rename_i hguard
    have hnf : "full_name" ∉ t.present := by
      intro hmem
      have hc := contains_iff_mem.mpr hmem
      simp [hc] at hguard
      exact hguard.1.1 hmem
    simp only [List.nodup_append, List.nodup_singleton]
    refine ⟨hnd, by simp, ?_⟩
    intro a ha hb
    rw [List.mem_singleton.mp hb] at ha
    exact hnf ha
  · exact hnd

theorem WF_synth {t : CTable} (hwf : WF t) : WF (synthFullName t) := by
  rw [synthFullName_eq]
  split
  · intro r hr
    rcases List.mem_map.mp hr with ⟨r0, hr0, hre⟩
    rw [← hre]
    show (r0.2 ++ [_]).map Prod.fst = _
    rw [List.map_append, hwf r0 hr0]
    rfl
  · exact hwf

/-- `synthFullName` guarantees: whenever both name parts are present, so is
`full_name`. -/
theorem synth_full_of_parts {t : CTable} :
    "first_name" ∈ (synthFullName t).present → "last_name" ∈ (synthFullName t).present →
      "full_name" ∈ (synthFullName t).present := by
  rw [synthFullName_eq]
  split
  · intro _ _
    exact List.mem_append_right _ (List.mem_singleton.mpr rfl)
  · rename_i hguard
    intro h1 h2
    by_contra hnf
    apply hguard
    have c1 : t.present.contains "first_name" = true := contains_iff_mem.mpr h1
    have c2 : t.present.contains "last_name" = true := contains_iff_mem.mpr h2
    have c0 : t.present.contains "full_name" = false := by
      rw [← Bool.not_eq_true]
      intro hcc
      exact hnf (contains_iff_mem.mp hcc)
    rw [c0, c1, c2]
    rfl

theorem mapCol_present (c : String) (f : Value → Value) (t : CTable) :
    (mapCol c f t).present = t.present := by
  rw [mapCol]
  split <;> rfl

theorem WF_mapCol {t : CTable} (hwf : WF t) (c : String) (f : Value → Value) :
    WF (mapCol c f t) := by
  rw [mapCol]
  split
  · intro r hr
    rcases List.mem_map.mp hr with ⟨r0, hr0, hre⟩
    rw [← hre]
    show (r0.2.map _).map Prod.fst = _
    rw [List.map_map]
    have : (Prod.fst ∘ fun cell : String × Value =>
        if cell.1 == c then (cell.1, f cell.2) else cell) = Prod.fst := by
      funext cell
      by_cases hcell : (cell.1 == c) = true <;> simp [Function.comp, hcell]
    rw [this]
    exact hwf r0 hr0
  · exact hwf

theorem validateRows_present (cfg : CleanConfig) (t : CTable) :
    ((validateRows cfg t).1).present = t.present := rfl

theorem WF_validate {t : CTable} (hwf : WF t) (cfg : CleanConfig) :
    WF (validateRows cfg t).1 := by
  intro r hr
  have : r ∈ t.rows := List.mem_of_mem_filter hr
  exact hwf r this

theorem addKeyCol_present (cfg : CleanConfig) (t : CTable) :
    (addKeyCol cfg t).present = t.present ++ ["_dedupe_key"] := rfl

theorem addKeyCol_rows (cfg : CleanConfig) (t : CTable) :
    (addKeyCol cfg t).rows = t.rows.map (fun r =>
      (r.1, r.2 ++ [("_dedupe_key", Value.str (rowKey cfg t.present r.2))])) := rfl

theorem WF_addKey {t : CTable} (hwf : WF t) (cfg : CleanConfig) : WF (addKeyCol cfg t) := by
  intro r hr
  rcases List.mem_map.mp hr with ⟨r0, hr0, hre⟩
  rw [← hre]
  show (r0.2 ++ [_]).map Prod.fst = _
  rw [List.map_append, hwf r0 hr0]
  rfl

theorem storedKey_addKey {t : CTable} (hwf : WF t) (cfg : CleanConfig)
    (hkey : "_dedupe_key" ∉ t.present) {r0 : Nat × Cells} (hr0 : r0 ∈ t.rows) :
    storedKey (r0.2 ++ [("_dedupe_key", Value.str (rowKey cfg t.present r0.2))]) =
      rowKey cfg t.present r0.2 := by
  rw [storedKey, getVal_append_key]
  rw [if_neg (show ("_dedupe_key" : String) ∉ r0.2.map Prod.fst by rw [hwf r0 hr0]; exact hkey)]
  rw [if_pos rfl]

theorem dedupe_present (cfg : CleanConfig) (t : CTable) :
    ((dedupeStage cfg t).1).present = t.present ++ ["_dedupe_key"] := by
  rw [dedupeStage]
  split <;> rfl

theorem dedupe_rows_mem {cfg : CleanConfig} {t : CTable} :
    ∀ r ∈ ((dedupeStage cfg t).1).rows, r ∈ (addKeyCol cfg t).rows := by
  rw [dedupeStage]
  split
  · intro r hr
    have h1 := (keepLast_sublist _ _).subset hr
    exact ((List.perm_insertionSort _ _).mem_iff).mp h1
  · intro r hr
    exact (keepLast_sublist _ _).subset hr

theorem WF_dedupe {t : CTable} (hwf : WF t) (cfg : CleanConfig) :
    WF (dedupeStage cfg t).1 := by
  intro r hr
  rw [dedupe_present]
  exact WF_addKey hwf cfg r (dedupe_rows_mem r hr)

theorem dropKey_present (t : CTable) :
    (dropKeyCol t).present = t.present.filter (fun c => c != "_dedupe_key") := rfl

theorem map_fst_filter_key (cells : Cells) :
    (cells.filter (fun cell => cell.1 != "_dedupe_key")).map Prod.fst =
      (cells.map Prod.fst).filter (fun c => c != "_dedupe_key") := by
  induction cells with
  | nil => rfl
  | cons p ps ih =>
    rw [List.filter_cons, List.map_cons, List.filter_cons]
    by_cases h : (p.1 != "_dedupe_key") = true
    · rw [if_pos h, List.map_cons, ih, if_pos h]
    · rw [if_neg h, ih, if_neg h]

theorem WF_dropKey {t : CTable} (hwf : WF t) : WF (dropKeyCol t) := by
  intro r hr
  rcases List.mem_map.mp hr with ⟨r0, hr0, hre⟩
  rw [← hre]
  show (r0.2.filter _).map Prod.fst = _
  rw [dropKey_present]
  rw [map_fst_filter_key, hwf r0 hr0]

theorem reorder_ordered_mem (t : CTable) {c : String} :
    c ∈ (preferred_order.filter (fun c => t.present.contains c)
        ++ t.present.filter (fun c => !preferred_order.contains c)) ↔ c ∈ t.present := by
  rw [List.mem_append, List.mem_filter, List.mem_filter]
  constructor
  · rintro (⟨_, h2⟩ | ⟨h1, _⟩)
    · exact contains_iff_mem.mp h2
    · exact h1
  · intro h
    by_cases hp : c ∈ preferred_order
    · left
      exact ⟨hp, contains_iff_mem.mpr h⟩
    · right
      refine ⟨h, ?_⟩
      rw [Bool.not_eq_true']
      rw [← Bool.not_eq_true]
      intro hc
      exact hp (contains_iff_mem.mp hc)

theorem reorderCols_rows (t : CTable) :
    (reorderCols t).rows = t.rows.map (fun r => (r.1,
      (preferred_order.filter (fun c => t.present.contains c)
        ++ t.present.filter (fun c => !preferred_order.contains c)).map
          (fun c => (c, getVal r.2 c)))) := rfl

theorem dropKeyCol_rows (t : CTable) :
    (dropKeyCol t).rows =
      t.rows.map (fun r => (r.1, r.2.filter (fun cell => cell.1 != "_dedupe_key"))) := rfl

theorem reorder_present_mem (t : CTable) {c : String} :
    c ∈ (reorderCols t).present ↔ c ∈ t.present := by
  rw [reorderCols]
  exact reorder_ordered_mem t

theorem WF_reorder (t : CTable) : WF (reorderCols t) := by
  intro r hr
  rcases List.mem_map.mp hr with ⟨r0, hr0, hre⟩
  rw [← hre]
  exact map_fst_pairs _ _

theorem reorder_getVal {t : CTable} (hwf : WF t) {r0 : Nat × Cells} (hr0 : r0 ∈ t.rows)
    (x : String) :
    getVal ((preferred_order.filter (fun c => t.present.contains c)
        ++ t.present.filter (fun c => !preferred_order.contains c)).map
          (fun c => (c, getVal r0.2 c))) x = getVal r0.2 x := by
  rw [getVal_map_cols]
  by_cases hx : x ∈ (preferred_order.filter (fun c => t.present.contains c)
      ++ t.present.filter (fun c => !preferred_order.contains c))
  · rw [if_pos hx]
  · rw [if_neg hx]
    have hxp : x ∉ t.present := fun h => hx ((reorder_ordered_mem t).mpr h)
    exact (getVal_notPresent hwf hr0 hxp).symm

/-! ## Pipeline-level structural lemmas -/

theorem outTable_present (parse : String → Option Int) (df : DataFrame) (cfg : CleanConfig) :
    (outTable parse df cfg).present =
      (synthFullName (buildOut (mappingOf df cfg) df)).present := by
  rw [outTable, parseDates, normalizeTable, mapCol_present, mapCol_present, mapCol_present]

theorem outTable_present_sub (parse : String → Option Int) (df : DataFrame) (cfg : CleanConfig) :
    ∀ c ∈ (outTable parse df cfg).present, c ∈ canonicalKeys := by
  rw [outTable_present]
  exact synth_present_sub (buildOut_present_sub _ _)

theorem outTable_present_nodup (parse : String → Option Int) (df : DataFrame)
    (cfg : CleanConfig) : (outTable parse df cfg).present.Nodup := by
  rw [outTable_present]
  exact synth_present_nodup (buildOut_present_nodup _ _)

theorem outTable_key_not_present (parse : String → Option Int) (df : DataFrame)
    (cfg : CleanConfig) : "_dedupe_key" ∉ (outTable parse df cfg).present := by
  intro h
  have := outTable_present_sub parse df cfg _ h
  revert this
  decide

theorem WF_outTable (parse : String → Option Int) (df : DataFrame) (cfg : CleanConfig) :
    WF (outTable parse df cfg) := by
  rw [outTable, parseDates, normalizeTable]
  exact WF_mapCol (WF_mapCol (WF_mapCol (WF_synth (WF_buildOut _ _)) _ _) _ _) _ _

theorem WF_validTable (parse : String → Option Int) (df : DataFrame) (cfg : CleanConfig) :
    WF (validateRows cfg (outTable parse df cfg)).1 :=
  WF_validate (WF_outTable parse df cfg) cfg

theorem cleaned_eq (parse : String → Option Int) (df : DataFrame) (cfg : CleanConfig) :
    (clean_contacts_csv parse df cfg).1.cleaned =
      reorderCols (dropKeyCol
        (dedupeStage cfg (validateRows cfg (outTable parse df cfg)).1).1) := rfl

theorem report_eq (parse : String → Option Int) (df : DataFrame) (cfg : CleanConfig) :
    (clean_contacts_csv parse df cfg).1.report =
      (validateRows cfg (outTable parse df cfg)).2 ++
        (dedupeStage cfg (validateRows cfg (outTable parse df cfg)).1).2 := rfl

theorem cleaned_present_mem (parse : String → Option Int) (df : DataFrame)
    (cfg : CleanConfig) {c : String} :
    c ∈ ((clean_contacts_csv parse df cfg).1.cleaned).present ↔
      c ∈ (outTable parse df cfg).present := by
  rw [cleaned_eq]
  rw [reorder_present_mem]
  rw [dropKey_present, List.mem_filter, dedupe_present, validateRows_present]
  constructor
  · rintro ⟨h1, _⟩
    rcases List.mem_append.mp h1 with h | h
    · exact h
    · rename_i h2
      exfalso
      rw [List.mem_singleton.mp h] at h2
      simp at h2
  · intro h
    refine ⟨List.mem_append_left _ h, ?_⟩
    have hne : c ≠ "_dedupe_key" := by
      intro he
      rw [he] at h
      exact outTable_key_not_present parse df cfg h
    simp [hne]

theorem cleaned_key_not_present (parse : String → Option Int) (df : DataFrame)
    (cfg : CleanConfig) :
    "_dedupe_key" ∉ ((clean_contacts_csv parse df cfg).1.cleaned).present := by
  intro h
  exact outTable_key_not_present parse df cfg ((cleaned_present_mem parse df cfg).mp h)

theorem cleaned_present_sub (parse : String → Option Int) (df : DataFrame)
    (cfg : CleanConfig) :
    ∀ c ∈ ((clean_contacts_csv parse df cfg).1.cleaned).present, c ∈ canonicalKeys :=
  fun c hc => outTable_present_sub parse df cfg c ((cleaned_present_mem parse df cfg).mp hc)

theorem WF_cleaned (parse : String → Option Int) (df : DataFrame) (cfg : CleanConfig) :
    WF ((clean_contacts_csv parse df cfg).1.cleaned) := by
  rw [cleaned_eq]
  exact WF_reorder _

set_option maxHeartbeats 2000000 in
/-- Every cleaned row originates in a valid row with the same index and,
outside the synthetic key column, the same cell values. -/
theorem cleaned_transport (parse : String → Option Int) (df : DataFrame) (cfg : CleanConfig) :
    ∀ r ∈ ((clean_contacts_csv parse df cfg).1.cleaned).rows,
      ∃ r0 ∈ ((validateRows cfg (outTable parse df cfg)).1).rows,
        r.1 = r0.1 ∧ ∀ x, x ≠ "_dedupe_key" → getVal r.2 x = getVal r0.2 x := by
  intro r hr
  rw [cleaned_eq] at hr
  have hwfv : WF (validateRows cfg (outTable parse df cfg)).1 := WF_validTable parse df cfg
  have hwfd : WF (dedupeStage cfg (validateRows cfg (outTable parse df cfg)).1).1 :=
    WF_dedupe hwfv cfg
  have hwfdk : WF (dropKeyCol (dedupeStage cfg (validateRows cfg (outTable parse df cfg)).1).1) :=
    WF_dropKey hwfd
  rw [reorderCols_rows] at hr
  rcases List.mem_map.mp hr with ⟨r1, hr1, hre1⟩
  have heq1 : ∀ x, getVal r.2 x = getVal r1.2 x := by
    intro x
    rw [← hre1]
    exact reorder_getVal hwfdk hr1 x
  rw [dropKeyCol_rows] at hr1
  rcases List.mem_map.mp hr1 with ⟨r2, hr2, hre2⟩
  have heq2 : ∀ x, x ≠ "_dedupe_key" → getVal r1.2 x = getVal r2.2 x := by
    intro x hx
    rw [← hre2]
    exact @getVal_filter_keys r2.2 (fun c => c != "_dedupe_key") x
      (by rw [bne_iff_ne]; exact hx)
  have hr2' : r2 ∈ (addKeyCol cfg (validateRows cfg (outTable parse df cfg)).1).rows :=
    dedupe_rows_mem r2 hr2
  rw [addKeyCol_rows] at hr2'
  rcases List.mem_map.mp hr2' with ⟨r0, hr0, hre0⟩
  have heq3 : ∀ x, x ≠ "_dedupe_key" → getVal r2.2 x = getVal r0.2 x := by
    intro x hx
    rw [← hre0]
    show getVal (r0.2 ++ [_]) x = _
    rw [getVal_append_key]
    by_cases hmem : x ∈ r0.2.map Prod.fst
    · rw [if_pos hmem]
    · rw [if_neg hmem, if_neg hx]
      exact (getVal_eq_na_of_not_mem hmem).symm
  refine ⟨r0, hr0, ?_, ?_⟩
  · rw [← hre1, ← hre2, ← hre0]
  · intro x hx
    rw [heq1 x, heq2 x hx, heq3 x hx]

/-! ## Validation lemmas -/

theorem valid_rows_pass (cfg : CleanConfig) (t : CTable) :
    ∀ r ∈ (validateRows cfg t).1.rows, missing_required cfg.required t.present r.2 = [] := by
  intro r hr
  have h := List.mem_filter.mp hr
  have h2 := h.2
  rwa [List.isEmpty_iff] at h2

theorem missing_nil_fact {required present : List String} {cells : Cells}
    (h : missing_required required present cells = []) :
    ∀ req ∈ required, present.contains req = true ∧ isMissingVal (getVal cells req) = false := by
  intro req hreq
  have h2 := List.filter_eq_nil_iff.mp h req hreq
  rcases hc : present.contains req with _ | _
  · exfalso
    apply h2
    rw [hc]
    rfl
  · refine ⟨rfl, ?_⟩
    rcases hm : isMissingVal (getVal cells req) with _ | _
    · rfl
    · exfalso
      apply h2
      rw [hc, hm]
      rfl

theorem valEntry_row_of_mem {required present : List String} :
    ∀ {rows : List (Nat × Cells)} {e : ReportEntry},
      e ∈ rows.filterMap (valEntry required present) → ∃ r ∈ rows, e.row = some r.1 := by
  intro rows e he
  rcases List.mem_filterMap.mp he with ⟨r, hr, hre⟩
  refine ⟨r, hr, ?_⟩
  rw [valEntry] at hre
  split at hre
  · exact absurd hre (by simp)
  · rw [← Option.some.inj hre]

theorem filter_valEntries_eq_nil {required present : List String}
    {rows : List (Nat × Cells)} {i : Nat} (hi : i ∉ rows.map Prod.fst) :
    (rows.filterMap (valEntry required present)).filter (fun e => e.row == some i) = [] := by
  rw [List.filter_eq_nil_iff]
  intro e he
  rcases valEntry_row_of_mem he with ⟨r, hr, hre⟩
  rw [hre]
  intro hbeq
  rw [beq_iff_eq] at hbeq
  have : i = r.1 := (Option.some.inj hbeq).symm
  rw [this] at hi
  exact hi (List.mem_map_of_mem Prod.fst hr)

/-- For a table with distinct row indexes, an excluded row's index appears
on exactly one validation entry, carrying its missing-field reason. -/
theorem filter_valEntries_singleton {required present : List String} :
    ∀ {rows : List (Nat × Cells)}, (rows.map Prod.fst).Nodup →
      ∀ {r : Nat × Cells}, r ∈ rows →
      missing_required required present r.2 ≠ [] →
      (rows.filterMap (valEntry required present)).filter (fun e => e.row == some r.1) =
        [⟨some r.1, "missing_required:" ++
          String.intercalate "," (missing_required required present r.2)⟩] := by
  intro rows
  induction rows with
  | nil =>
    intro _ r hr
    exact absurd hr (List.not_mem_nil r)
  | cons a rows ih =>
    intro hnd r hr hmiss
    have hnd2 : (rows.map Prod.fst).Nodup := (List.map_cons Prod.fst a rows ▸ hnd).of_cons
    have hanotin : a.1 ∉ rows.map Prod.fst := by
      have := List.map_cons Prod.fst a rows ▸ hnd
      exact (List.nodup_cons.mp this).1
    rw [List.filterMap_cons]
    rcases List.mem_cons.mp hr with hra | hrr
    · subst hra
      cases hv : valEntry required present r with
      | none =>
        exfalso
        rw [valEntry] at hv
        split at hv
        · rename_i hempty
          exact hmiss (List.isEmpty_iff.mp hempty)
        · exact absurd hv (by simp)
      | some e =>
        rw [valEntry] at hv
        split at hv
        · exact absurd hv (by simp)
        · rw [List.filter_cons]
          have he : e = ⟨some r.1, "missing_required:" ++
              String.intercalate "," (missing_required required present r.2)⟩ :=
            (Option.some.inj hv).symm
          rw [he]
          rw [if_pos (by rw [beq_iff_eq])]
          rw [filter_valEntries_eq_nil hanotin]
    · have hne : a.1 ≠ r.1 := by
        intro he
        rw [he] at hanotin
        exact hanotin (List.mem_map_of_mem Prod.fst hrr)
      cases hv : valEntry required present a with
      | none => exact ih hnd2 hrr hmiss
      | some e =>
        rw [List.filter_cons]
        have herow : e.row = some a.1 := by
          rw [valEntry] at hv
          split at hv
          · exact absurd hv (by simp)
          · rw [← Option.some.inj hv]
        rw [if_neg (by
          rw [herow]
          intro hbeq
          rw [beq_iff_eq] at hbeq
          exact hne (Option.some.inj hbeq))]
        exact ih hnd2 hrr hmiss

/-! ## `mapCol` transport and value fixed points -/

theorem getVal_mapCell_self_present {cells : Cells} {c : String} {f : Value → Value}
    (hmem : c ∈ cells.map Prod.fst) :
    getVal (cells.map (fun cell => if cell.1 == c then (cell.1, f cell.2) else cell)) c =
      f (getVal cells c) := by
  rcases lookup_isSome_of_mem_keys hmem with ⟨v, hv⟩
  rw [getVal_mapCell_self, hv, getVal, hv]
  rfl

theorem mapCol_rows_transport {c : String} {f : Value → Value} {t : CTable} (hwf : WF t) :
    ∀ r ∈ (mapCol c f t).rows, ∃ r0 ∈ t.rows,
      r.1 = r0.1 ∧ (∀ x, x ≠ c → getVal r.2 x = getVal r0.2 x) ∧
      (c ∈ t.present → getVal r.2 c = f (getVal r0.2 c)) ∧
      (c ∉ t.present → getVal r.2 c = getVal r0.2 c) := by
  rw [mapCol]
  split
  · rename_i hc
    intro r hr
    rcases List.mem_map.mp hr with ⟨r0, hr0, hre⟩
    refine ⟨r0, hr0, by rw [← hre], ?_, ?_, ?_⟩
    · intro x hx
      rw [← hre]
      exact getVal_mapCell_ne hx
    · intro hcp
      rw [← hre]
      exact getVal_mapCell_self_present (by rw [hwf r0 hr0]; exact hcp)
    · intro hcp
      exact absurd (contains_iff_mem.mp hc) hcp
  · rename_i hc
    intro r hr
    exact ⟨r, hr, rfl, fun x _ => rfl, fun hcp =>
      absurd (contains_iff_mem.mpr hcp) (by simpa using hc), fun _ => rfl⟩

theorem normEmailVal_idem (v : Value) : normEmailVal (normEmailVal v) = normEmailVal v := by
  show Value.str (pyLower (pyStrip (pyLower (pyStrip (toStrFill v))))) = _
  rw [emailNorm_idem]
  rfl

theorem normFullVal_idem (v : Value) : normFullVal (normFullVal v) = normFullVal v := by
  show Value.str (pyStrip (collapseSpaces (pyStrip (collapseSpaces (toStrFill v))))) = _
  rw [fullNorm_idem]
  rfl

theorem parseDateVal_idem (parse : String → Option Int) (v : Value) :
    parseDateVal parse (parseDateVal parse v) = parseDateVal parse v := by
  cases v with
  | str s =>
    rw [parseDateVal]
    cases parse s with
    | some d => rfl
    | none => rfl
  | na => rfl
  | date d => rfl

/-! ## Dedupe key lemmas -/

theorem contains_congr {P Q : List String} (h : ∀ c, c ∈ P ↔ c ∈ Q) (c : String) :
    P.contains c = Q.contains c := by
  by_cases hc : c ∈ Q
  · rw [contains_iff_mem.mpr hc, contains_iff_mem.mpr ((h c).mpr hc)]
  · have h1 : P.contains c = false := by
      rw [← Bool.not_eq_true]
      intro hh
      exact hc ((h c).mp (contains_iff_mem.mp hh))
    have h2 : Q.contains c = false := by
      rw [← Bool.not_eq_true]
      intro hh
      exact hc (contains_iff_mem.mp hh)
    rw [h1, h2]

theorem rowKey_congr {cfg : CleanConfig} {P Q : List String} {r s : Cells}
    (hPQ : ∀ c, c ∈ P ↔ c ∈ Q)
    (hval : ∀ c, c ≠ "_dedupe_key" → getVal r c = getVal s c) :
    rowKey cfg P r = rowKey cfg Q s := by
  simp only [rowKey]
  rw [contains_congr hPQ "email", contains_congr hPQ "full_name"]
  rw [hval "email" (by decide), hval "full_name" (by decide)]

theorem rowKey_proj_eq {cfg cfg' : CleanConfig} (h : cfg.dedupe_key = cfg'.dedupe_key)
    (P : List String) (r : Cells) : rowKey cfg P r = rowKey cfg' P r := by
  simp only [rowKey, h]

theorem addKey_keys (cfg : CleanConfig) {t : CTable} (hwf : WF t)
    (hkey : "_dedupe_key" ∉ t.present) :
    (addKeyCol cfg t).rows.map (fun r => storedKey r.2) =
      t.rows.map (fun r => rowKey cfg t.present r.2) := by
  rw [addKeyCol_rows, List.map_map]
  apply List.map_congr_left
  intro r hr
  exact storedKey_addKey hwf cfg hkey hr

theorem dedupe_keys_nodup (cfg : CleanConfig) (t : CTable) :
    (((dedupeStage cfg t).1).rows.map (fun r => storedKey r.2)).Nodup := by
  rw [dedupeStage]
  split
  · exact nodup_map_key_keepLast _ _
  · exact nodup_map_key_keepLast _ _

theorem dedupe_keys_mem (cfg : CleanConfig) (t : CTable) {k : String} :
    k ∈ ((dedupeStage cfg t).1).rows.map (fun r => storedKey r.2) ↔
      k ∈ (addKeyCol cfg t).rows.map (fun r => storedKey r.2) := by
  rw [dedupeStage]
  split
  · rw [mem_map_key_keepLast]
    constructor
    · intro h
      exact ((List.perm_insertionSort (sortRel cfg.date_field) (addKeyCol cfg t).rows).map
        (fun r => storedKey r.2)).mem_iff.mp h
    · intro h
      exact ((List.perm_insertionSort (sortRel cfg.date_field) (addKeyCol cfg t).rows).map
        (fun r => storedKey r.2)).mem_iff.mpr h
  · rw [mem_map_key_keepLast]

theorem dedupe_report_nil {cfg : CleanConfig} {t : CTable}
    (hnodup : ((addKeyCol cfg t).rows.map (fun r => storedKey r.2)).Nodup) :
    (dedupeStage cfg t).2 = [] := by
  rw [dedupeStage]
  split
  · have hperm := (List.perm_insertionSort (sortRel cfg.date_field)
      (addKeyCol cfg t).rows).map (fun r => storedKey r.2)
    have hnd2 : ((List.insertionSort (sortRel cfg.date_field)
        (addKeyCol cfg t).rows).map (fun r => storedKey r.2)).Nodup :=
      hperm.nodup_iff.mpr hnodup
    show (dupKeys (List.insertionSort (sortRel cfg.date_field) (addKeyCol cfg t).rows)).map
      (fun k => (⟨none, "deduped_removed_duplicates:key=" ++ k⟩ : ReportEntry)) = []
    rw [dupKeys_eq_nil_of_nodup hnd2]
    rfl
  · rfl

/-! ## Value fixed points on the pipeline tables -/

theorem outTable_eq_stages (parse : String → Option Int) (df : DataFrame) (cfg : CleanConfig) :
    outTable parse df cfg =
      mapCol cfg.date_field (parseDateVal parse)
        (mapCol "email" normEmailVal
          (mapCol "full_name" normFullVal
            (synthFullName (buildOut (mappingOf df cfg) df)))) := rfl

theorem outTable_email_fixed (parse : String → Option Int) (df : DataFrame)
    (cfg : CleanConfig) (hne : cfg.date_field ≠ "email") :
    ∀ r ∈ (outTable parse df cfg).rows, "email" ∈ (outTable parse df cfg).present →
      normEmailVal (getVal r.2 "email") = getVal r.2 "email" := by
  intro r hr hp
  have hwf0 : WF (synthFullName (buildOut (mappingOf df cfg) df)) :=
    WF_synth (WF_buildOut _ _)
  have hwf1 := WF_mapCol hwf0 "full_name" normFullVal
  have hwf2 := WF_mapCol hwf1 "email" normEmailVal
  rw [outTable_eq_stages] at hr
  rcases mapCol_rows_transport hwf2 r hr with ⟨r1, hr1, _, hval1, _, _⟩
  rcases mapCol_rows_transport hwf1 r1 hr1 with ⟨r2, hr2, _, _, hself, _⟩
  have hpe : "email" ∈ (mapCol "full_name" normFullVal
      (synthFullName (buildOut (mappingOf df cfg) df))).present := by
    rw [mapCol_present]
    rw [outTable_present] at hp
    exact hp
  have h1 : getVal r.2 "email" = getVal r1.2 "email" :=
    hval1 "email" (fun h => hne h.symm)
  have h2 : getVal r1.2 "email" = normEmailVal (getVal r2.2 "email") := hself hpe
  rw [h1, h2, normEmailVal_idem]

theorem outTable_full_fixed (parse : String → Option Int) (df : DataFrame)
    (cfg : CleanConfig) (hne : cfg.date_field ≠ "full_name") :
    ∀ r ∈ (outTable parse df cfg).rows, "full_name" ∈ (outTable parse df cfg).present →
      normFullVal (getVal r.2 "full_name") = getVal r.2 "full_name" := by
  intro r hr hp
  have hwf0 : WF (synthFullName (buildOut (mappingOf df cfg) df)) :=
    WF_synth (WF_buildOut _ _)
  have hwf1 := WF_mapCol hwf0 "full_name" normFullVal
  have hwf2 := WF_mapCol hwf1 "email" normEmailVal
  rw [outTable_eq_stages] at hr
  rcases mapCol_rows_transport hwf2 r hr with ⟨r1, hr1, _, hval1, _, _⟩
  rcases mapCol_rows_transport hwf1 r1 hr1 with ⟨r2, hr2, _, hval2, _, _⟩
  rcases mapCol_rows_transport hwf0 r2 hr2 with ⟨r3, hr3, _, _, hself, _⟩
  have hpf : "full_name" ∈ (synthFullName (buildOut (mappingOf df cfg) df)).present := by
    rw [outTable_present] at hp
    exact hp
  have h1 : getVal r.2 "full_name" = getVal r1.2 "full_name" :=
    hval1 "full_name" (fun h => hne h.symm)
  have h2 : getVal r1.2 "full_name" = getVal r2.2 "full_name" :=
    hval2 "full_name" (by decide)
  have h3 : getVal r2.2 "full_name" = normFullVal (getVal r3.2 "full_name") := hself hpf
  rw [h1, h2, h3, normFullVal_idem]

theorem outTable_date_fixed (parse : String → Option Int) (df : DataFrame)
    (cfg : CleanConfig) :
    ∀ r ∈ (outTable parse df cfg).rows,
      parseDateVal parse (getVal r.2 cfg.date_field) = getVal r.2 cfg.date_field := by
  intro r hr
  by_cases hp : cfg.date_field ∈ (outTable parse df cfg).present
  · have hwf0 : WF (synthFullName (buildOut (mappingOf df cfg) df)) :=
      WF_synth (WF_buildOut _ _)
    have hwf1 := WF_mapCol hwf0 "full_name" normFullVal
    have hwf2 := WF_mapCol hwf1 "email" normEmailVal
    rw [outTable_eq_stages] at hr
    rcases mapCol_rows_transport hwf2 r hr with ⟨r1, hr1, _, _, hself, _⟩
    have hpd : cfg.date_field ∈ (mapCol "email" normEmailVal (mapCol "full_name" normFullVal
        (synthFullName (buildOut (mappingOf df cfg) df)))).present := by
      rw [mapCol_present, mapCol_present]
      rw [outTable_present] at hp
      exact hp
    have h1 : getVal r.2 cfg.date_field = parseDateVal parse (getVal r1.2 cfg.date_field) :=
      hself hpd
    rw [h1, parseDateVal_idem]
  · rw [getVal_notPresent (WF_outTable parse df cfg) hr hp]
    rfl

theorem vt_rows_sub (parse : String → Option Int) (df : DataFrame) (cfg : CleanConfig) :
    ∀ r ∈ ((validateRows cfg (outTable parse df cfg)).1).rows,
      r ∈ (outTable parse df cfg).rows := by
  intro r hr
  exact List.mem_of_mem_filter hr

theorem map_fst_map_pair {γ δ : Type} {rows : List (Nat × γ)} {g : Nat × γ → δ} :
    (rows.map (fun r => (r.1, g r))).map Prod.fst = rows.map Prod.fst := by
  rw [List.map_map]
  apply List.map_congr_left
  intro a _
  rfl

theorem mapCol_rows_fst (c : String) (f : Value → Value) (t : CTable) :
    (mapCol c f t).rows.map Prod.fst = t.rows.map Prod.fst := by
  rw [mapCol]
  split
  · exact map_fst_map_pair
  · rfl

theorem synth_rows_fst (t : CTable) :
    (synthFullName t).rows.map Prod.fst = t.rows.map Prod.fst := by
  rw [synthFullName_eq]
  split
  · exact map_fst_map_pair
  · rfl

theorem buildOut_rows_fst (m : List (String × String)) (df : DataFrame) :
    (buildOut m df).rows.map Prod.fst = df.rows.map Prod.fst := by
  simp only [buildOut]
  exact map_fst_map_pair

theorem outTable_rows_fst (parse : String → Option Int) (df : DataFrame) (cfg : CleanConfig) :
    (outTable parse df cfg).rows.map Prod.fst = df.rows.map Prod.fst := by
  rw [outTable_eq_stages, mapCol_rows_fst, mapCol_rows_fst, mapCol_rows_fst,
    synth_rows_fst, buildOut_rows_fst]

set_option maxHeartbeats 2000000 in
/-- The dedupe keys recomputed on the cleaned rows agree pointwise with the
stored synthetic keys of the deduplicated rows. -/
theorem cleaned_keys (parse : String → Option Int) (df : DataFrame) (cfg : CleanConfig) :
    ((clean_contacts_csv parse df cfg).1.cleaned).rows.map
        (fun r => rowKey cfg ((clean_contacts_csv parse df cfg).1.cleaned).present r.2) =
      ((dedupeStage cfg (validateRows cfg (outTable parse df cfg)).1).1).rows.map
        (fun r => storedKey r.2) := by
  have hwfv := WF_validTable parse df cfg
  have hwfd := WF_dedupe hwfv cfg
  have hwfdk := WF_dropKey hwfd
  have hpmem := fun c : String => cleaned_present_mem parse df cfg (c := c)
  rw [cleaned_eq, reorderCols_rows, dropKeyCol_rows, List.map_map, List.map_map]
  apply List.map_congr_left
  intro r2 hr2
  have hdropmem : (r2.1, r2.2.filter (fun cell => cell.1 != "_dedupe_key")) ∈
      (dropKeyCol (dedupeStage cfg (validateRows cfg (outTable parse df cfg)).1).1).rows := by
    rw [dropKeyCol_rows]
    exact List.mem_map_of_mem _ hr2
  have haddmem := dedupe_rows_mem r2 hr2
  rw [addKeyCol_rows] at haddmem
  rcases List.mem_map.mp haddmem with ⟨r0, hr0, hre0⟩
  have hval : ∀ x, x ≠ "_dedupe_key" →
      getVal ((preferred_order.filter (fun c =>
          (dropKeyCol (dedupeStage cfg (validateRows cfg (outTable parse df cfg)).1).1).present.contains c)
        ++ (dropKeyCol (dedupeStage cfg (validateRows cfg (outTable parse df cfg)).1).1).present.filter
            (fun c => !preferred_order.contains c)).map
          (fun c => (c, getVal (r2.2.filter (fun cell => cell.1 != "_dedupe_key")) c))) x =
        getVal r2.2 x := by
    intro x hx
    rw [reorder_getVal hwfdk hdropmem x]
    exact @getVal_filter_keys r2.2 (fun c => c != "_dedupe_key") x
      (by rw [bne_iff_ne]; exact hx)
  have hval2 : ∀ x, x ≠ "_dedupe_key" → getVal r2.2 x = getVal r0.2 x := by
    intro x hx
    rw [← hre0]
    show getVal (r0.2 ++ [_]) x = _
    rw [getVal_append_key]
    by_cases hmem : x ∈ r0.2.map Prod.fst
    · rw [if_pos hmem]
    · rw [if_neg hmem, if_neg hx]
      exact (getVal_eq_na_of_not_mem hmem).symm
  have hkey3 : storedKey r2.2 =
      rowKey cfg ((validateRows cfg (outTable parse df cfg)).1).present r0.2 := by
    rw [← hre0]
    exact storedKey_addKey hwfv cfg (outTable_key_not_present parse df cfg) hr0
  show rowKey cfg _ _ = storedKey r2.2
  rw [hkey3]
  apply rowKey_congr
  · intro c
    exact hpmem c
  · intro c hc
    rw [hval c hc, hval2 c hc]

/-! ## Row pairing for the second-run analysis -/

theorem forall₂_map_self {g : (Nat × Cells) → (Nat × Cells)} :
    ∀ {l : List (Nat × Cells)}, (∀ a ∈ l, pairR (g a) a) → List.Forall₂ pairR (l.map g) l := by
  intro l
  induction l with
  | nil => intro _; exact List.Forall₂.nil
  | cons a t ih =>
    intro h
    rw [List.map_cons]
    exact List.Forall₂.cons (h a (List.mem_cons_self a t))
      (ih (fun b hb => h b (List.mem_cons_of_mem _ hb)))

theorem forall₂_mem_left {R : (Nat × Cells) → (Nat × Cells) → Prop} :
    ∀ {rs bs : List (Nat × Cells)}, List.Forall₂ R rs bs → ∀ a ∈ rs, ∃ b ∈ bs, R a b := by
  intro rs bs h
  induction h with
  | nil =>
    intro a ha
    exact absurd ha (List.not_mem_nil a)
  | cons hR hrest ih =>
    intro a ha
    rcases List.mem_cons.mp ha with h1 | h1
    · exact ⟨_, List.mem_cons_self _ _, h1 ▸ hR⟩
    · rcases ih a h1 with ⟨b, hb, hRb⟩
      exact ⟨b, List.mem_cons_of_mem _ hb, hRb⟩

theorem forall₂_map_eq {f g : (Nat × Cells) → String} {R : (Nat × Cells) → (Nat × Cells) → Prop} :
    ∀ {rs bs : List (Nat × Cells)}, List.Forall₂ R rs bs →
      (∀ a b, R a b → f a = g b) → rs.map f = bs.map g := by
  intro rs bs h hfg
  induction h with
  | nil => rfl
  | cons hR _ ih => rw [List.map_cons, List.map_cons, hfg _ _ hR, ih]

theorem paired_map_cells {c : String} {f : Value → Value} :
    ∀ {rs bs : List (Nat × Cells)}, List.Forall₂ pairR rs bs →
      (∀ b ∈ bs, f (getVal b.2 c) = getVal b.2 c) →
      List.Forall₂ pairR (rs.map (fun r =>
        (r.1, r.2.map (fun cell => if cell.1 == c then (cell.1, f cell.2) else cell)))) bs := by
  intro rs bs h
  induction h with
  | nil =>
    intro _
    exact List.Forall₂.nil
  | cons hR hrest ih =>
    rename_i a b rs' bs'
    intro hfix
    rw [List.map_cons]
    refine List.Forall₂.cons ⟨hR.1, ?_⟩ (ih (fun q hq => hfix q (List.mem_cons_of_mem _ hq)))
    intro x
    by_cases hx : x = c
    · subst hx
      rw [getVal_mapCell_self]
      cases hl : a.2.lookup x with
      | none =>
        have ha : getVal a.2 x = Value.na := by rw [getVal, hl]; rfl
        show Value.na = getVal b.2 x
        rw [← hR.2 x, ha]
      | some v =>
        have ha : getVal a.2 x = v := by rw [getVal, hl]; rfl
        show f v = getVal b.2 x
        have hv : v = getVal b.2 x := by rw [← hR.2 x, ha]
        rw [hv]
        exact hfix b (List.mem_cons_self b bs')
    · rw [getVal_mapCell_ne hx]
      exact hR.2 x

theorem paired_mapCol {c : String} {f : Value → Value} {t : CTable}
    {base : List (Nat × Cells)} (hp : List.Forall₂ pairR t.rows base)
    (hfix : c ∈ t.present → ∀ b ∈ base, f (getVal b.2 c) = getVal b.2 c) :
    List.Forall₂ pairR (mapCol c f t).rows base := by
  rw [mapCol]
  split
  · rename_i hc
    exact paired_map_cells hp (hfix (contains_iff_mem.mp hc))
  · exact hp

theorem synth_noop {t : CTable}
    (himp : "first_name" ∈ t.present → "last_name" ∈ t.present →
      "full_name" ∈ t.present) : synthFullName t = t := by
  rw [synthFullName_eq]
  split
  · rename_i hg
    exfalso
    simp only [Bool.and_eq_true, Bool.not_eq_true'] at hg
    have hfull := himp (contains_iff_mem.mp hg.1.2) (contains_iff_mem.mp hg.2)
    have := contains_iff_mem.mpr hfull
    rw [hg.1.1] at this
    exact absurd this (by simp)
  · rfl

theorem canon_ne_empty : ∀ x ∈ canonicalKeys, (x != "") = true := by decide

theorem buildOut_auto_present {t : CTable} (hsub : ∀ c ∈ t.present, c ∈ canonicalKeys) :
    ∀ c, c ∈ (buildOut (_build_auto_mapping t.present) (toDataFrame t)).present ↔
      c ∈ t.present := by
  intro c
  simp only [buildOut, toDataFrame]
  rw [List.mem_filter]
  constructor
  · rintro ⟨hck, hkeep⟩
    rw [autoMap_lookup_canon hsub hck] at hkeep
    by_cases hct : c ∈ t.present
    · exact hct
    · rw [if_neg hct] at hkeep
      exact absurd hkeep (by simp)
  · intro hct
    have hck := hsub c hct
    refine ⟨hck, ?_⟩
    rw [autoMap_lookup_canon hsub hck, if_pos hct]
    show (c != "" && t.present.contains c) = true
    rw [Bool.and_eq_true]
    exact ⟨canon_ne_empty c hck, contains_iff_mem.mpr hct⟩

theorem buildOut_auto_paired {t : CTable} (hwf : WF t)
    (hsub : ∀ c ∈ t.present, c ∈ canonicalKeys) :
    List.Forall₂ pairR (buildOut (_build_auto_mapping t.present) (toDataFrame t)).rows
      t.rows := by
  simp only [buildOut, toDataFrame]
  apply forall₂_map_self
  intro a ha
  refine ⟨rfl, ?_⟩
  intro x
  show getVal (List.map (fun c => (c, getVal a.2 ((List.lookup c (_build_auto_mapping t.present)).getD ""))) _) x = _
  rw [getVal_map_cols]
  by_cases hx : x ∈ canonicalKeys.filter (fun c =>
      match (_build_auto_mapping t.present).lookup c with
      | some src => src != "" && t.present.contains src
      | none => false)
  · rw [if_pos hx]
    have hxc : x ∈ canonicalKeys := (List.mem_filter.mp hx).1
    have hkeep := (List.mem_filter.mp hx).2
    rw [autoMap_lookup_canon hsub hxc] at hkeep ⊢
    by_cases hxt : x ∈ t.present
    · rw [if_pos hxt]
      rfl
    · rw [if_neg hxt] at hkeep
      exact absurd hkeep (by simp)
  · rw [if_neg hx]
    have hxt : x ∉ t.present := by
      intro hmem
      apply hx
      rw [List.mem_filter]
      refine ⟨hsub x hmem, ?_⟩
      rw [autoMap_lookup_canon hsub (hsub x hmem), if_pos hmem]
      show (x != "" && t.present.contains x) = true
      rw [Bool.and_eq_true]
      exact ⟨canon_ne_empty x (hsub x hmem), contains_iff_mem.mpr hmem⟩
    exact (getVal_notPresent hwf ha hxt).symm

/-! ## Second-run lemmas -/

theorem missing_required_congr {required P Q : List String} {cellsA cellsB : Cells}
    (hPQ : ∀ c, c ∈ P ↔ c ∈ Q) (hval : ∀ x, getVal cellsA x = getVal cellsB x) :
    missing_required required P cellsA = missing_required required Q cellsB := by
  rw [missing_required, missing_required]
  apply List.filter_congr
  intro req _
  rw [contains_congr hPQ req, hval req]

theorem cleaned_full_of_parts (parse : String → Option Int) (df : DataFrame)
    (cfg : CleanConfig) :
    "first_name" ∈ ((clean_contacts_csv parse df cfg).1.cleaned).present →
      "last_name" ∈ ((clean_contacts_csv parse df cfg).1.cleaned).present →
      "full_name" ∈ ((clean_contacts_csv parse df cfg).1.cleaned).present := by
  intro h1 h2
  rw [cleaned_present_mem] at h1 h2 ⊢
  rw [outTable_present] at h1 h2 ⊢
  exact synth_full_of_parts h1 h2

theorem cleaned_email_fixed (parse : String → Option Int) (df : DataFrame)
    (cfg : CleanConfig) (hne : cfg.date_field ≠ "email") :
    ∀ r ∈ ((clean_contacts_csv parse df cfg).1.cleaned).rows,
      "email" ∈ ((clean_contacts_csv parse df cfg).1.cleaned).present →
      normEmailVal (getVal r.2 "email") = getVal r.2 "email" := by
  intro r hr hp
  rcases cleaned_transport parse df cfg r hr with ⟨r0, hr0, _, hval⟩
  rw [hval "email" (by decide)]
  exact outTable_email_fixed parse df cfg hne r0 (vt_rows_sub parse df cfg r0 hr0)
    ((cleaned_present_mem parse df cfg).mp hp)

theorem cleaned_full_fixed (parse : String → Option Int) (df : DataFrame)
    (cfg : CleanConfig) (hne : cfg.date_field ≠ "full_name") :
    ∀ r ∈ ((clean_contacts_csv parse df cfg).1.cleaned).rows,
      "full_name" ∈ ((clean_contacts_csv parse df cfg).1.cleaned).present →
      normFullVal (getVal r.2 "full_name") = getVal r.2 "full_name" := by
  intro r hr hp
  rcases cleaned_transport parse df cfg r hr with ⟨r0, hr0, _, hval⟩
  rw [hval "full_name" (by decide)]
  exact outTable_full_fixed parse df cfg hne r0 (vt_rows_sub parse df cfg r0 hr0)
    ((cleaned_present_mem parse df cfg).mp hp)

theorem cleaned_date_fixed (parse : String → Option Int) (df : DataFrame)
    (cfg : CleanConfig) :
    ∀ r ∈ ((clean_contacts_csv parse df cfg).1.cleaned).rows,
      parseDateVal parse (getVal r.2 cfg.date_field) = getVal r.2 cfg.date_field := by
  intro r hr
  by_cases hp : cfg.date_field ∈ ((clean_contacts_csv parse df cfg).1.cleaned).present
  · have hne : cfg.date_field ≠ "_dedupe_key" := by
      intro he
      rw [he] at hp
      exact cleaned_key_not_present parse df cfg hp
    rcases cleaned_transport parse df cfg r hr with ⟨r0, hr0, _, hval⟩
    rw [hval cfg.date_field hne]
    exact outTable_date_fixed parse df cfg r0 (vt_rows_sub parse df cfg r0 hr0)
  · rw [getVal_notPresent (WF_cleaned parse df cfg) hr hp]
    rfl

set_option maxHeartbeats 1000000 in
/-- Feeding a canonical table back through the pipeline with the mapping
auto-derived again: when the table's columns are canonical, `full_name`
accompanies the name parts, and the normalized fields are fixed points of
their normalizations, the second projection, synthesis, normalization and
parsing produce rows that read identically, over the same columns. -/
theorem rerun_out_paired (parse : String → Option Int) (cfg : CleanConfig) (T : CTable)
    (hwfT : WF T) (hsubT : ∀ c ∈ T.present, c ∈ canonicalKeys)
    (hparts : "first_name" ∈ T.present → "last_name" ∈ T.present → "full_name" ∈ T.present)
    (hfixF : ∀ b ∈ T.rows, "full_name" ∈ T.present →
      normFullVal (getVal b.2 "full_name") = getVal b.2 "full_name")
    (hfixE : ∀ b ∈ T.rows, "email" ∈ T.present →
      normEmailVal (getVal b.2 "email") = getVal b.2 "email")
    (hfixD : ∀ b ∈ T.rows,
      parseDateVal parse (getVal b.2 cfg.date_field) = getVal b.2 cfg.date_field) :
    List.Forall₂ pairR (outTable parse (toDataFrame T) (rerunConfig cfg)).rows T.rows ∧
      ∀ c, c ∈ (outTable parse (toDataFrame T) (rerunConfig cfg)).present ↔ c ∈ T.present := by
  have hmap : mappingOf (toDataFrame T) (rerunConfig cfg) =
      _build_auto_mapping T.present := rfl
  have hBpaired := buildOut_auto_paired hwfT hsubT
  have hBpres := buildOut_auto_present hsubT
  have hsynth : synthFullName (buildOut (_build_auto_mapping T.present) (toDataFrame T)) =
      buildOut (_build_auto_mapping T.present) (toDataFrame T) := by
    apply synth_noop
    intro hf hl
    exact (hBpres "full_name").mpr
      (hparts ((hBpres "first_name").mp hf) ((hBpres "last_name").mp hl))
  constructor
  · rw [outTable_eq_stages, hmap, hsynth]
    apply paired_mapCol
    · apply paired_mapCol
      · apply paired_mapCol
        · exact hBpaired
        · intro hfp b hb
          exact hfixF b hb ((hBpres "full_name").mp hfp)
      · intro hep b hb
        rw [mapCol_present] at hep
        exact hfixE b hb ((hBpres "email").mp hep)
    · intro _ b hb
      exact hfixD b hb
  · intro c
    rw [outTable_present, hmap, hsynth]
    exact hBpres c

set_option maxHeartbeats 1000000 in
/-- Under the same hypotheses plus validated rows and pairwise-distinct
keys, re-running the pipeline produces an empty report: no rejection and
no duplicate removal. -/
theorem rerun_report_nil (parse : String → Option Int) (cfg : CleanConfig) (T : CTable)
    (hwfT : WF T) (hsubT : ∀ c ∈ T.present, c ∈ canonicalKeys)
    (hparts : "first_name" ∈ T.present → "last_name" ∈ T.present → "full_name" ∈ T.present)
    (hfixF : ∀ b ∈ T.rows, "full_name" ∈ T.present →
      normFullVal (getVal b.2 "full_name") = getVal b.2 "full_name")
    (hfixE : ∀ b ∈ T.rows, "email" ∈ T.present →
      normEmailVal (getVal b.2 "email") = getVal b.2 "email")
    (hfixD : ∀ b ∈ T.rows,
      parseDateVal parse (getVal b.2 cfg.date_field) = getVal b.2 cfg.date_field)
    (hreq : ∀ r ∈ T.rows, missing_required cfg.required T.present r.2 = [])
    (hkeys : (T.rows.map (fun r => rowKey cfg T.present r.2)).Nodup) :
    (clean_contacts_csv parse (toDataFrame T) (rerunConfig cfg)).1.report = [] := by
  obtain ⟨hpair, hpres⟩ :=
    rerun_out_paired parse cfg T hwfT hsubT hparts hfixF hfixE hfixD
  have hmiss2 : ∀ a ∈ (outTable parse (toDataFrame T) (rerunConfig cfg)).rows,
      missing_required (rerunConfig cfg).required
        (outTable parse (toDataFrame T) (rerunConfig cfg)).present a.2 = [] := by
    intro a ha
    rcases forall₂_mem_left hpair a ha with ⟨b, hb, hR⟩
    show missing_required cfg.required _ _ = []
    rw [missing_required_congr hpres hR.2]
    exact hreq b hb
  have hvalrows : ((validateRows (rerunConfig cfg)
      (outTable parse (toDataFrame T) (rerunConfig cfg))).1).rows =
      (outTable parse (toDataFrame T) (rerunConfig cfg)).rows := by
    apply List.filter_eq_self.mpr
    intro a ha
    rw [hmiss2 a ha]
    rfl
  have hvalrep : (validateRows (rerunConfig cfg)
      (outTable parse (toDataFrame T) (rerunConfig cfg))).2 = [] := by
    apply List.filterMap_eq_nil_iff.mpr
    intro a ha
    rw [valEntry]
    rw [hmiss2 a ha]
    rfl
  have hwfv2 := WF_validTable parse (toDataFrame T) (rerunConfig cfg)
  have hkeys2 : ((addKeyCol (rerunConfig cfg) (validateRows (rerunConfig cfg)
      (outTable parse (toDataFrame T) (rerunConfig cfg))).1).rows.map
        (fun r => storedKey r.2)).Nodup := by
    rw [addKey_keys (rerunConfig cfg) hwfv2 (outTable_key_not_present parse _ _)]
    show (((validateRows (rerunConfig cfg)
      (outTable parse (toDataFrame T) (rerunConfig cfg))).1).rows.map _).Nodup
    rw [hvalrows]
    have hmapeq : (outTable parse (toDataFrame T) (rerunConfig cfg)).rows.map
        (fun r => rowKey (rerunConfig cfg)
          ((validateRows (rerunConfig cfg)
            (outTable parse (toDataFrame T) (rerunConfig cfg))).1).present r.2) =
        T.rows.map (fun r => rowKey cfg T.present r.2) := by
      apply forall₂_map_eq hpair
      intro a b hR
      rw [rowKey_proj_eq (show (rerunConfig cfg).dedupe_key = cfg.dedupe_key from rfl)]
      exact rowKey_congr hpres (fun c _ => hR.2 c)
    rw [hmapeq]
    exact hkeys
  have hdeduprep := dedupe_report_nil hkeys2
  rw [report_eq, hvalrep, hdeduprep]
  rfl

/-! ## General first-alias-match characterization -/

theorem revLookup_none_of_not_mem_norm {cols : List String} {k : String}
    (h : k ∉ cols.map _normalize_header) : (revLookupList cols).lookup k = none := by
  apply lookup_eq_none_of_not_mem_keys
  rw [revLookupList, List.map_reverse, List.mem_reverse, List.map_map]
  intro hmem
  apply h
  rcases List.mem_map.mp hmem with ⟨c, hc, hce⟩
  rw [← hce]
  exact List.mem_map_of_mem _ hc

theorem firstAliasMatch_none {cols : List String} :
    ∀ {as : List String}, (∀ a ∈ as, _normalize_header a ∉ cols.map _normalize_header) →
      firstAliasMatch (revLookupList cols) as = none := by
  intro as
  induction as with
  | nil => intro _; rfl
  | cons a rest ih =>
    intro h
    rw [firstAliasMatch_cons,
      revLookup_none_of_not_mem_norm (h a (List.mem_cons_self a rest))]
    exact ih (fun b hb => h b (List.mem_cons_of_mem a hb))

theorem firstAliasMatch_first_hit {cols : List String} :
    ∀ {as : List String} (i : Nat) (hi : i < as.length),
      _normalize_header (as.get ⟨i, hi⟩) ∈ cols.map _normalize_header →
      (∀ j (hj : j < i), _normalize_header (as.get ⟨j, Nat.lt_trans hj hi⟩) ∉
        cols.map _normalize_header) →
      ∃ src ∈ cols, _normalize_header src = _normalize_header (as.get ⟨i, hi⟩) ∧
        firstAliasMatch (revLookupList cols) as = some src := by
  intro as
  induction as with
  | nil =>
    intro i hi
    exact absurd hi (by simp)
  | cons a rest ih =>
    intro i hi hmem hbefore
    cases i with
    | zero =>
      have hk : _normalize_header a ∈
          (revLookupList cols).map Prod.fst := by
        rw [revLookupList, List.map_reverse, List.mem_reverse, List.map_map]
        rcases List.mem_map.mp hmem with ⟨c, hc, hce⟩
        exact List.mem_map.mpr ⟨c, hc, hce⟩
      rcases lookup_isSome_of_mem_keys hk with ⟨v, hv⟩
      have hvc := revLookup_some hv
      refine ⟨v, hvc.1, hvc.2, ?_⟩
      rw [firstAliasMatch_cons, hv]
    | succ n =>
      have h0 : _normalize_header a ∉ cols.map _normalize_header :=
        hbefore 0 (Nat.succ_pos n)
      rw [firstAliasMatch_cons, revLookup_none_of_not_mem_norm h0]
      exact ih n (Nat.lt_of_succ_lt_succ hi) hmem
        (fun j hj => hbefore (j + 1) (Nat.succ_lt_succ hj))

theorem filterMap_autoMap_keys_sub {rev : List (String × String)}
    {entries : List (String × List String)} {k : String}
    (h : k ∈ (List.filterMap (autoMapEntry rev) entries).map Prod.fst) :
    k ∈ entries.map Prod.fst := by
  rcases List.mem_map.mp h with ⟨p, hp, hpk⟩
  rcases List.mem_filterMap.mp hp with ⟨e, he, hme⟩
  rw [autoMapEntry] at hme
  cases hfa : firstAliasMatch rev e.2 with
  | none => rw [hfa] at hme; exact absurd hme (by simp)
  | some o =>
    rw [hfa] at hme
    rw [← hpk, ← Option.some.inj hme]
    exact List.mem_map_of_mem Prod.fst he

theorem lookup_filterMap_autoMap {rev : List (String × String)} :
    ∀ {entries : List (String × List String)} {f : String} {as : List String},
      (f, as) ∈ entries → (entries.map Prod.fst).Nodup →
      (List.filterMap (autoMapEntry rev) entries).lookup f =
        match firstAliasMatch rev as with
        | some orig => some orig
        | none => none := by
  intro entries
  induction entries with
  | nil => intro f as hmem _; exact absurd hmem (List.not_mem_nil _)
  | cons e rest ih =>
    intro f as hmem hnd
    rcases e with ⟨g, gas⟩
    rcases List.mem_cons.mp hmem with heq | htail
    · injection heq with h1 h2
      subst h1; subst h2
      rw [lookup_filterMap_head]
      cases hm : firstAliasMatch rev as with
      | some o => rfl
      | none =>
        have hgn : f ∉ rest.map Prod.fst := by
          have := List.nodup_cons.mp hnd
          simpa using this.1
        exact lookup_eq_none_of_not_mem_keys
          (fun hk => hgn (filterMap_autoMap_keys_sub hk))
    · by_cases hfg : f = g
      · subst hfg
        have hgn : f ∉ rest.map Prod.fst := by
          have := List.nodup_cons.mp hnd
          simpa using this.1
        exact absurd (List.mem_map_of_mem Prod.fst htail) hgn
      · rw [lookup_filterMap_skip (beq_eq_false_iff_ne.mpr hfg)]
        exact ih htail (List.nodup_cons.mp hnd).2

theorem COMMON_ALIASES_keys_nodup : (COMMON_ALIASES.map Prod.fst).Nodup := by decide

theorem autoMap_lookup_entry {cols : List String} {f : String} {as : List String}
    (hfa : (f, as) ∈ COMMON_ALIASES) :
    (_build_auto_mapping cols).lookup f =
      match firstAliasMatch (revLookupList cols) as with
      | some orig => some orig
      | none => none := by
  rw [_build_auto_mapping_eq]
  exact lookup_filterMap_autoMap hfa COMMON_ALIASES_keys_nodup

/-! ## Further helper lemmas for the claims -/

theorem dedupe_entries_row_none (cfg : CleanConfig) (t : CTable) :
    ∀ e ∈ (dedupeStage cfg t).2, e.row = none := by
  simp only [dedupeStage]
  split
  · intro e he
    rcases List.mem_map.mp he with ⟨k, _, hk⟩
    rw [← hk]
  · intro e he
    exact absurd he (List.not_mem_nil e)

theorem fullNorm_shape (x : String) :
    pyStrip (pyStrip (collapseSpaces x)) = pyStrip (collapseSpaces x) ∧
      collapseSpaces (pyStrip (collapseSpaces x)) = pyStrip (collapseSpaces x) :=
  ⟨pyStrip_idem _, congrArg String.mk (collapse_strip_collapse x.data)⟩

theorem emailNorm_shape (x : String) :
    pyStrip (pyLower (pyStrip x)) = pyLower (pyStrip x) ∧
      pyLower (pyLower (pyStrip x)) = pyLower (pyStrip x) := by
  constructor
  · rw [pyStrip_pyLower, pyStrip_idem]
  · exact pyLower_idem _

theorem rowKey_not_email {cfg cfg' : CleanConfig}
    (h : (cfg.dedupe_key == "email") = false) (h' : (cfg'.dedupe_key == "email") = false)
    (P : List String) (r : Cells) : rowKey cfg P r = rowKey cfg' P r := by
  simp only [rowKey, h, h', Bool.false_and]

theorem addKeyCol_not_email {cfg cfg' : CleanConfig}
    (h : (cfg.dedupe_key == "email") = false) (h' : (cfg'.dedupe_key == "email") = false)
    (t : CTable) : addKeyCol cfg t = addKeyCol cfg' t := by
  simp only [addKeyCol]
  congr 1
  apply List.map_congr_left
  intro r _
  rw [rowKey_not_email h h']

theorem dedupeStage_not_email {cfg cfg' : CleanConfig}
    (hd : cfg.date_field = cfg'.date_field)
    (h : (cfg.dedupe_key == "email") = false) (h' : (cfg'.dedupe_key == "email") = false)
    (t : CTable) : dedupeStage cfg t = dedupeStage cfg' t := by
  simp only [dedupeStage]
  rw [addKeyCol_not_email h h' t, hd]

/-! ## The claims -/

/-- Claim C1 (code bug): the spec says rows with the missing-date marker
sort first, so a real date always beats a missing one in a duplicate
group.  Pandas sorts `NaT` last by default (`na_position="last"`), and
`keep="last"` then retains the missing-date row: at this input, the
canonical table has the key `x@y.com` twice, once with the parsed date
`2022-05-01` and once with the missing marker, yet the cleaned output is
exactly the missing-date row. -/
theorem C1_code_eval :
    ((outTable parse0 dfC1w defaultConfig).rows.map
        (fun r => (r.1, rowKey defaultConfig (outTable parse0 dfC1w defaultConfig).present r.2,
          getVal r.2 "last_clean_date")) =
      [(0, "x@y.com", Value.date 20220501), (1, "x@y.com", Value.na)]) ∧
    ((clean_contacts_csv parse0 dfC1w defaultConfig).1.cleaned.rows.map
        (fun r => (r.1, getVal r.2 "last_clean_date")) = [(1, Value.na)]) ∧
    ((clean_contacts_csv parse0 dfC1w defaultConfig).1.report =
      [⟨none, "deduped_removed_duplicates:key=x@y.com"⟩]) :=
  ⟨rfl, rfl, rfl⟩

/-- Claim C2 (counterexample): the spec says the key is never taken from
a different field and is empty when the configured source field is
absent.  With `dedupe_key="email"` and no email column, the code falls
back to `full_name`: the keys are `ann`/`bob`, not empty, and both rows
survive where an always-empty key would have merged them. -/
theorem C2_counterexample :
    defaultConfig.dedupe_key = "email" ∧
      ((outTable parse0 dfC2w defaultConfig).present.contains "email" = false) ∧
      (rowKey defaultConfig (outTable parse0 dfC2w defaultConfig).present
        [("full_name", Value.str "Ann")] = "ann") ∧
      ((clean_contacts_csv parse0 dfC2w defaultConfig).1.cleaned.rows.map
        (fun r => getVal r.2 "full_name") = [Value.str "Ann", Value.str "Bob"]) :=
  ⟨rfl, rfl, rfl, rfl⟩

/-- Claim C2 (amended): the key column stores, per valid row, the
normalized (stripped, lowercased) email when the configured key is
`"email"` and the email column exists; otherwise the normalized
`full_name` when that column exists; otherwise the empty string — the
email-absent case falls back to `full_name` instead of staying empty. -/
theorem C2_amended (cfg : CleanConfig) (t : CTable) (hwf : WF t)
    (hkey : "_dedupe_key" ∉ t.present) :
    (addKeyCol cfg t).rows.map (fun r => storedKey r.2) =
      t.rows.map (fun r =>
        if cfg.dedupe_key = "email" ∧ "email" ∈ t.present then
          pyLower (pyStrip (toStrFill (getVal r.2 "email")))
        else if "full_name" ∈ t.present then
          pyLower (pyStrip (toStrFill (getVal r.2 "full_name")))
        else "") := by
  rw [addKey_keys cfg hwf hkey]
  apply List.map_congr_left
  intro r _
  simp only [rowKey]
  by_cases h1 : cfg.dedupe_key = "email" ∧ "email" ∈ t.present
  · have hb : (cfg.dedupe_key == "email" && t.present.contains "email") = true := by
      rw [h1.1, contains_iff_mem.mpr h1.2]
      decide
    rw [if_pos hb, if_pos h1]
  · have hcf : (cfg.dedupe_key == "email" && t.present.contains "email") = false := by
      rcases not_and_or.mp h1 with h | h
      · rw [beq_eq_false_iff_ne.mpr h]
        rfl
      · have hc : t.present.contains "email" = false :=
          Bool.eq_false_iff.mpr (fun hx => h (contains_iff_mem.mp hx))
        rw [hc, Bool.and_false]
    rw [if_neg (by rw [hcf]; exact Bool.false_ne_true), if_neg h1]
    by_cases h2 : "full_name" ∈ t.present
    · rw [contains_iff_mem.mpr h2, if_pos rfl, if_pos h2]
    · have hc2 : t.present.contains "full_name" = false :=
        Bool.eq_false_iff.mpr (fun hx => h2 (contains_iff_mem.mp hx))
      rw [hc2, if_neg Bool.false_ne_true, if_neg h2]
      rfl

/-- Witness for the amended C2 at a concrete canonical table. -/
theorem C2_amended_witness :
    (addKeyCol defaultConfig (outTable parse0 dfC2w defaultConfig)).rows.map
        (fun r => storedKey r.2) =
      (outTable parse0 dfC2w defaultConfig).rows.map (fun r =>
        if defaultConfig.dedupe_key = "email" ∧
            "email" ∈ (outTable parse0 dfC2w defaultConfig).present then
          pyLower (pyStrip (toStrFill (getVal r.2 "email")))
        else if "full_name" ∈ (outTable parse0 dfC2w defaultConfig).present then
          pyLower (pyStrip (toStrFill (getVal r.2 "full_name")))
        else "") :=
  C2_amended defaultConfig (outTable parse0 dfC2w defaultConfig)
    (WF_outTable parse0 dfC2w defaultConfig)
    (outTable_key_not_present parse0 dfC2w defaultConfig)

/-- Claim C3 (code bug): the spec asks both dedupe paths to report one
`deduped_removed_duplicates` entry per group with more than one member.
The no-date code path reports nothing at all: this input has no date
column, two valid rows share the key `x@y.com`, one is removed, and the
report is empty. -/
theorem C3_code_eval :
    ((outTable parse0 dfC3w defaultConfig).present.contains "last_clean_date" = false) ∧
    ((validateRows defaultConfig (outTable parse0 dfC3w defaultConfig)).1.rows.map
        (fun r => rowKey defaultConfig (outTable parse0 dfC3w defaultConfig).present r.2) =
      ["x@y.com", "x@y.com"]) ∧
    ((clean_contacts_csv parse0 dfC3w defaultConfig).1.cleaned.rows.length = 1) ∧
    ((clean_contacts_csv parse0 dfC3w defaultConfig).1.report = []) :=
  ⟨rfl, rfl, rfl, rfl⟩

/-- Claim C4: every cleaned row carries every configured required field,
present among the output columns and non-missing, and (for a table with
pairwise-distinct row indexes) every row that validation rejects gets
exactly one report entry `missing_required:` followed by the missing
fields, comma-joined in required-list order, against its own ordinal. -/
theorem C4_required_fields (parse : String → Option Int) (df : DataFrame)
    (cfg : CleanConfig) (hnd : (df.rows.map Prod.fst).Nodup) :
    (∀ r ∈ ((clean_contacts_csv parse df cfg).1.cleaned).rows, ∀ req ∈ cfg.required,
      req ∈ ((clean_contacts_csv parse df cfg).1.cleaned).present ∧
        isMissingVal (getVal r.2 req) = false) ∧
    (∀ r ∈ (outTable parse df cfg).rows,
      missing_required cfg.required (outTable parse df cfg).present r.2 ≠ [] →
      ((clean_contacts_csv parse df cfg).1.report).filter (fun e => e.row == some r.1) =
        [⟨some r.1, "missing_required:" ++ String.intercalate ","
          (missing_required cfg.required (outTable parse df cfg).present r.2)⟩]) := by
  constructor
  · intro r hr req hreq
    rcases cleaned_transport parse df cfg r hr with ⟨r0, hr0, _, hval⟩
    have hmiss := valid_rows_pass cfg (outTable parse df cfg) r0 hr0
    have hfact := missing_nil_fact hmiss req hreq
    have hpresent : req ∈ (outTable parse df cfg).present := contains_iff_mem.mp hfact.1
    have hne : req ≠ "_dedupe_key" := by
      intro he
      rw [he] at hpresent
      exact outTable_key_not_present parse df cfg hpresent
    refine ⟨(cleaned_present_mem parse df cfg).mpr hpresent, ?_⟩
    rw [hval req hne]
    exact hfact.2
  · intro r hr hmiss
    rw [report_eq, List.filter_append]
    have hd : ((dedupeStage cfg (validateRows cfg (outTable parse df cfg)).1).2).filter
        (fun e => e.row == some r.1) = [] := by
      rw [List.filter_eq_nil_iff]
      intro e he hbeq
      rw [dedupe_entries_row_none cfg _ e he] at hbeq
      exact Bool.false_ne_true hbeq
    rw [hd, List.append_nil]
    have hnd2 : ((outTable parse df cfg).rows.map Prod.fst).Nodup := by
      rw [outTable_rows_fst]
      exact hnd
    exact filter_valEntries_singleton hnd2 hr hmiss

/-- Witness for C4 at a concrete input: the surviving row's required
field is present and non-missing, and the rejected row's single report
entry. -/
theorem C4_witness :
    (("full_name" ∈ ((clean_contacts_csv parse0 dfW4 defaultConfig).1.cleaned).present ∧
      isMissingVal (getVal [("full_name", Value.str "Ok Guy"),
        ("email", Value.str "d@e.f")] "full_name") = false) ∧
    (((clean_contacts_csv parse0 dfW4 defaultConfig).1.report).filter
        (fun e => e.row == some 0) =
      [⟨some 0, "missing_required:" ++ String.intercalate ","
        (missing_required defaultConfig.required (outTable parse0 dfW4 defaultConfig).present
          [("full_name", Value.str ""), ("email", Value.str "a@b.c")])⟩])) := by
  have h := C4_required_fields parse0 dfW4 defaultConfig (by decide)
  constructor
  · exact h.1 (1, [("full_name", Value.str "Ok Guy"), ("email", Value.str "d@e.f")])
      (by decide) "full_name" (by decide)
  · exact h.2 (0, [("full_name", Value.str ""), ("email", Value.str "a@b.c")])
      (by decide) (by decide)

/-- Claim C5: recomputing each cleaned row's dedupe key, every key of a
valid row appears exactly once in the cleaned output (and no other key
appears at all), and the synthetic `_dedupe_key` column is gone from
the returned table. -/
theorem C5_one_row_per_key (parse : String → Option Int) (df : DataFrame)
    (cfg : CleanConfig) :
    (∀ k : String,
      ((((clean_contacts_csv parse df cfg).1.cleaned).rows.map
          (fun r => rowKey cfg ((clean_contacts_csv parse df cfg).1.cleaned).present r.2)).count k =
        if k ∈ ((validateRows cfg (outTable parse df cfg)).1).rows.map
            (fun r => rowKey cfg ((validateRows cfg (outTable parse df cfg)).1).present r.2)
          then 1 else 0)) ∧
    ((clean_contacts_csv parse df cfg).1.cleaned).present.contains "_dedupe_key" = false := by
  constructor
  · intro k
    rw [ cleaned_keys parse df cfg]
    have haddk := addKey_keys cfg (WF_validTable parse df cfg)
      (outTable_key_not_present parse df cfg)
    by_cases hk : k ∈ ((validateRows cfg (outTable parse df cfg)).1).rows.map
        (fun r => rowKey cfg ((validateRows cfg (outTable parse df cfg)).1).present r.2)
    · rw [if_pos hk]
      apply List.count_eq_one_of_mem (dedupe_keys_nodup cfg _)
      rw [dedupe_keys_mem, haddk]
      exact hk
    · rw [if_neg hk, List.count_eq_zero]
      intro hc
      rw [dedupe_keys_mem, haddk] at hc
      exact hk hc
  · exact Bool.eq_false_iff.mpr
      (fun hc => cleaned_key_not_present parse df cfg (contains_iff_mem.mp hc))

/-- Claim C6: the auto-mapper maps a canonical field to a source header
matched by the first alias (in declared order) whose normalized form
occurs among the normalized headers; a field with no matching alias is
absent from the mapping; and matching is case-, underscore- and
whitespace-insensitive (`E-Mail`, `email`, `email ` all map to `email`). -/
theorem C6_auto_mapper (columns : List String) (f : String) (aliases : List String)
    (hfa : (f, aliases) ∈ COMMON_ALIASES) :
    ((∀ a ∈ aliases, _normalize_header a ∉ columns.map _normalize_header) →
      (_build_auto_mapping columns).lookup f = none) ∧
    (∀ i, ∀ hi : i < aliases.length,
      _normalize_header (aliases.get ⟨i, hi⟩) ∈ columns.map _normalize_header →
      (∀ j, ∀ hj : j < i,
        _normalize_header (aliases.get ⟨j, Nat.lt_trans hj hi⟩) ∉
          columns.map _normalize_header) →
      ∃ src ∈ columns, _normalize_header src = _normalize_header (aliases.get ⟨i, hi⟩) ∧
        (_build_auto_mapping columns).lookup f = some src) ∧
    ((_build_auto_mapping ["E-Mail"]).lookup "email" = some "E-Mail") ∧
    ((_build_auto_mapping ["email"]).lookup "email" = some "email") ∧
    ((_build_auto_mapping ["email "]).lookup "email" = some "email ") := by
  refine ⟨?_, ?_, rfl, rfl, rfl⟩
  · intro hnone
    rw [autoMap_lookup_entry hfa, firstAliasMatch_none hnone]
  · intro i hi hmem hbefore
    rcases firstAliasMatch_first_hit i hi hmem hbefore with ⟨src, hsrc, hnorm, hfam⟩
    refine ⟨src, hsrc, hnorm, ?_⟩
    rw [autoMap_lookup_entry hfa, hfam]

/-- Witness for C6: with source header `E-Mail`, the first alias of
`email` (`email` itself) misses and the second (`e-mail`) matches. -/
theorem C6_witness :
    ∃ src ∈ ["E-Mail"],
      _normalize_header src =
        _normalize_header ((["email", "e-mail", "email address"] : List String).get
          ⟨1, by decide⟩) ∧
      (_build_auto_mapping ["E-Mail"]).lookup "email" = some src :=
  (C6_auto_mapper ["E-Mail"] "email" ["email", "e-mail", "email address"] (by decide)).2.1
    1 (by decide) (by decide)
    (fun j hj => by
      have hj0 : j = 0 := Nat.lt_one_iff.mp hj
      subst hj0
      show _normalize_header "email" ∉ List.map _normalize_header ["E-Mail"]
      decide)

/-- Claim C7: when `full_name` is not among the projected columns but
both name parts are, the synthesis step appends `full_name` as the
trimmed space-join of the stripped parts; after normalization a present
`full_name` is a string that is its own trim and whitespace-collapse, a
present `email` is a string that is its own trim and lowercase, and the
missing marker normalizes to the empty string, never to a null. -/
theorem C7_canonicalization (df : DataFrame) (cfg : CleanConfig) :
    ("full_name" ∉ (buildOut (mappingOf df cfg) df).present →
      "first_name" ∈ (buildOut (mappingOf df cfg) df).present →
      "last_name" ∈ (buildOut (mappingOf df cfg) df).present →
      ∀ r ∈ (synthFullName (buildOut (mappingOf df cfg) df)).rows,
        ∃ r0 ∈ (buildOut (mappingOf df cfg) df).rows, r.1 = r0.1 ∧
          getVal r.2 "full_name" =
            Value.str (pyStrip (pyStrip (toStrFill (getVal r0.2 "first_name")) ++ " " ++
              pyStrip (toStrFill (getVal r0.2 "last_name"))))) ∧
    (∀ r ∈ (normalizeTable (synthFullName (buildOut (mappingOf df cfg) df))).rows,
      "full_name" ∈ (synthFullName (buildOut (mappingOf df cfg) df)).present →
      ∃ s, getVal r.2 "full_name" = Value.str s ∧ pyStrip s = s ∧ collapseSpaces s = s) ∧
    (∀ r ∈ (normalizeTable (synthFullName (buildOut (mappingOf df cfg) df))).rows,
      "email" ∈ (synthFullName (buildOut (mappingOf df cfg) df)).present →
      ∃ s, getVal r.2 "email" = Value.str s ∧ pyStrip s = s ∧ pyLower s = s) ∧
    (normFullVal Value.na = Value.str "" ∧ normEmailVal Value.na = Value.str "") := by
  refine ⟨?_, ?_, ?_, rfl, rfl⟩
  · intro hnf hf hl r hr
    have hwfB := WF_buildOut (mappingOf df cfg) df
    have hcond : (!(buildOut (mappingOf df cfg) df).present.contains "full_name" &&
        (buildOut (mappingOf df cfg) df).present.contains "first_name" &&
        (buildOut (mappingOf df cfg) df).present.contains "last_name") = true := by
      have h1 : (buildOut (mappingOf df cfg) df).present.contains "full_name" = false :=
        Bool.eq_false_iff.mpr (fun hc => hnf (contains_iff_mem.mp hc))
      rw [h1, contains_iff_mem.mpr hf, contains_iff_mem.mpr hl]
      rfl
    rw [synthFullName, if_pos hcond] at hr
    rcases List.mem_map.mp hr with ⟨r0, hr0, hre⟩
    refine ⟨r0, hr0, by rw [← hre], ?_⟩
    rw [← hre]
    show getVal (r0.2 ++ [("full_name",
      synthNameVal (getVal r0.2 "first_name") (getVal r0.2 "last_name"))]) "full_name" = _
    rw [getVal_append_key]
    have hnmem : "full_name" ∉ r0.2.map Prod.fst := by
      rw [hwfB r0 hr0]
      exact hnf
    rw [if_neg hnmem, if_pos rfl]
    rfl
  · intro r hr hp
    have hwfS : WF (synthFullName (buildOut (mappingOf df cfg) df)) :=
      WF_synth (WF_buildOut (mappingOf df cfg) df)
    have hwfM : WF (mapCol "full_name" normFullVal
        (synthFullName (buildOut (mappingOf df cfg) df))) :=
      WF_mapCol hwfS "full_name" normFullVal
    rcases mapCol_rows_transport hwfM r hr with ⟨r1, hr1, _, hoff, _, _⟩
    rcases mapCol_rows_transport hwfS r1 hr1 with ⟨r0, _, _, _, hself, _⟩
    refine ⟨pyStrip (collapseSpaces (toStrFill (getVal r0.2 "full_name"))), ?_, ?_, ?_⟩
    · rw [hoff "full_name" (by decide), hself hp]
      rfl
    · exact (fullNorm_shape _).1
    · exact (fullNorm_shape _).2
  · intro r hr hp
    have hwfS : WF (synthFullName (buildOut (mappingOf df cfg) df)) :=
      WF_synth (WF_buildOut (mappingOf df cfg) df)
    have hwfM : WF (mapCol "full_name" normFullVal
        (synthFullName (buildOut (mappingOf df cfg) df))) :=
      WF_mapCol hwfS "full_name" normFullVal
    rcases mapCol_rows_transport hwfM r hr with ⟨r1, _, _, _, hself, _⟩
    have hpM : "email" ∈ (mapCol "full_name" normFullVal
        (synthFullName (buildOut (mappingOf df cfg) df))).present := by
      rw [mapCol_present]
      exact hp
    refine ⟨pyLower (pyStrip (toStrFill (getVal r1.2 "email"))), ?_, ?_, ?_⟩
    · rw [hself hpM]
      rfl
    · exact (emailNorm_shape _).1
    · exact (emailNorm_shape _).2

/-- Witness instance of C7's synthesis: the parts `Ann`/`Lee` of
`dfC7w` synthesize `full_name = "Ann Lee"`. -/
theorem C7_witness :
    ∃ r0 ∈ (buildOut (mappingOf dfC7w defaultConfig) dfC7w).rows, rowC7.1 = r0.1 ∧
      getVal rowC7.2 "full_name" =
        Value.str (pyStrip (pyStrip (toStrFill (getVal r0.2 "first_name")) ++ " " ++
          pyStrip (toStrFill (getVal r0.2 "last_name")))) :=
  (C7_canonicalization dfC7w defaultConfig).1 (by decide) (by decide) (by decide)
    rowC7 (by decide)

/-- Claim C8 (counterexample): the pipeline mutates `cfg.mapping`, so
re-running the cleaned output with the returned configuration is not a
no-op: the first run maps the `Name` header to `full_name`; its output
satisfies the required fields, yet the second run, whose stored mapping
points at the now-gone `Name` header, drops `full_name` and rejects the
row as `missing_required:full_name`. -/
theorem C8_counterexample :
    ((clean_contacts_csv parse0 dfC8w defaultConfig).1.cleaned.rows.map
        (fun r => (r.1, getVal r.2 "full_name")) = [(0, Value.str "Ann")]) ∧
    ((clean_contacts_csv parse0 dfC8w defaultConfig).1.cleaned.present = ["full_name"]) ∧
    (missing_required defaultConfig.required
        ((clean_contacts_csv parse0 dfC8w defaultConfig).1.cleaned).present
        [("full_name", Value.str "Ann")] = []) ∧
    ((clean_contacts_csv parse0
        (toDataFrame ((clean_contacts_csv parse0 dfC8w defaultConfig).1.cleaned))
        ((clean_contacts_csv parse0 dfC8w defaultConfig).2)).1.report =
      [⟨some 0, "missing_required:full_name"⟩]) :=
  ⟨rfl, rfl, rfl, rfl⟩

/-- Claim C8 (amended): re-running the pipeline on its own cleaned
output with the mapping auto-derived afresh (and a date field that is
not one of the re-normalized string fields), when every required field
is satisfied in that output, yields an empty report: no rejection and
no duplicate removal. -/
theorem C8_amended (parse : String → Option Int) (df : DataFrame) (cfg : CleanConfig)
    (h1 : cfg.date_field ≠ "full_name") (h2 : cfg.date_field ≠ "email")
    (hreq : ∀ r ∈ ((clean_contacts_csv parse df cfg).1.cleaned).rows,
      missing_required cfg.required
        ((clean_contacts_csv parse df cfg).1.cleaned).present r.2 = []) :
    (clean_contacts_csv parse
        (toDataFrame ((clean_contacts_csv parse df cfg).1.cleaned))
        (rerunConfig cfg)).1.report = [] := by
  apply rerun_report_nil parse cfg ((clean_contacts_csv parse df cfg).1.cleaned)
    (WF_cleaned parse df cfg) (cleaned_present_sub parse df cfg)
    (cleaned_full_of_parts parse df cfg)
    (cleaned_full_fixed parse df cfg h1)
    (cleaned_email_fixed parse df cfg h2)
    (cleaned_date_fixed parse df cfg)
    hreq
  rw [ cleaned_keys parse df cfg]
  exact dedupe_keys_nodup cfg (validateRows cfg (outTable parse df cfg)).1

/-- Witness for the amended C8 at a concrete input. -/
theorem C8_amended_witness :
    (clean_contacts_csv parse0
        (toDataFrame ((clean_contacts_csv parse0 dfC8w defaultConfig).1.cleaned))
        (rerunConfig defaultConfig)).1.report = [] :=
  C8_amended parse0 dfC8w defaultConfig (by decide) (by decide) (by decide)

/-- Claim C9 (counterexample): `CleanConfig` is a plain dataclass with
no validation: a configuration whose dedupe key is `"phone"` is
constructed without any failure, and the pipeline silently accepts it,
cleaning this two-row table with an empty report. -/
theorem C9_counterexample :
    cfgPhone.dedupe_key = "phone" ∧
      ((cfgPhone.dedupe_key == "email") = false) ∧
      ((cfgPhone.dedupe_key == "full_name") = false) ∧
      ((clean_contacts_csv parse0 dfC2w cfgPhone).1.cleaned.rows.length = 2) ∧
      ((clean_contacts_csv parse0 dfC2w cfgPhone).1.report = []) :=
  ⟨rfl, rfl, rfl, rfl, rfl⟩

/-- Claim C9 (amended): no configuration value is rejected; the only
guard is `argparse` `choices` in the excluded CLI layer.  Inside the
core, any dedupe key other than `"email"` behaves exactly as
`"full_name"` does. -/
theorem C9_amended (parse : String → Option Int) (df : DataFrame) (cfg : CleanConfig)
    (h : (cfg.dedupe_key == "email") = false) :
    (clean_contacts_csv parse df cfg).1 =
      (clean_contacts_csv parse df
        ⟨cfg.date_field, "full_name", cfg.required, cfg.mapping⟩).1 := by
  simp only [clean_contacts_csv]
  rw [@dedupeStage_not_email cfg ⟨cfg.date_field, "full_name", cfg.required, cfg.mapping⟩
    rfl h rfl (validateRows cfg (outTable parse df cfg)).1]
  rfl

/-- Witness for the amended C9: the `"phone"` key cleans exactly as
`"full_name"` would. -/
theorem C9_amended_witness :
    (clean_contacts_csv parse0 dfC2w cfgPhone).1 =
      (clean_contacts_csv parse0 dfC2w
        ⟨cfgPhone.date_field, "full_name", cfgPhone.required, cfgPhone.mapping⟩).1 :=
  C9_amended parse0 dfC2w cfgPhone (by decide)

/-- Claim C10: when `cfg.mapping` is `None` the call stores the
auto-derived mapping of the first table's headers into the
configuration, and a later call carrying that configuration on a table
with different headers reuses the stored mapping instead of
auto-mapping the new headers. -/
theorem C10_config_mutation (parse : String → Option Int) (df df2 : DataFrame)
    (cfg : CleanConfig) (h : cfg.mapping = none) :
    (clean_contacts_csv parse df cfg).2.mapping = some (_build_auto_mapping df.columns) ∧
      (clean_contacts_csv parse df2 ((clean_contacts_csv parse df cfg).2)).1 =
        (clean_contacts_csv parse df2
          ⟨cfg.date_field, cfg.dedupe_key, cfg.required,
            some (_build_auto_mapping df.columns)⟩).1 := by
  have hm : mappingOf df cfg = _build_auto_mapping df.columns := by
    simp only [mappingOf, h]
  have hcfg : (clean_contacts_csv parse df cfg).2 =
      ⟨cfg.date_field, cfg.dedupe_key, cfg.required,
        some (_build_auto_mapping df.columns)⟩ := by
    show (⟨cfg.date_field, cfg.dedupe_key, cfg.required,
      some (mappingOf df cfg)⟩ : CleanConfig) = _
    rw [hm]
  exact ⟨by rw [hcfg], by rw [hcfg]⟩

/-- Witness for C10: after cleaning the `Name`-headed table, the
configuration carries its mapping, and a second call on a
`full_name`-headed table behaves as if that stored mapping were given
explicitly. -/
theorem C10_witness :
    (clean_contacts_csv parse0 dfC8w defaultConfig).2.mapping =
        some (_build_auto_mapping dfC8w.columns) ∧
      (clean_contacts_csv parse0 dfC2w ((clean_contacts_csv parse0 dfC8w defaultConfig).2)).1 =
        (clean_contacts_csv parse0 dfC2w
          ⟨defaultConfig.date_field, defaultConfig.dedupe_key, defaultConfig.required,
            some (_build_auto_mapping dfC8w.columns)⟩).1 :=
  C10_config_mutation parse0 dfC8w dfC2w defaultConfig rfl

end CRMClean
